import Mathlib

/-!
A shallow embedding of the pouf1 wire-format shim layer
(`src/tuf/src/pouf/pouf1/shims.rs`) of the rust-tuf update framework,
together with proofs about its metadata codecs.

Modelling conventions:
* Rust `String` values are modelled as `List Char` (`Str`); the lexicographic
  order on `List Char` models Rust's `Ord for String` (they agree on the
  ASCII data appearing in this layer).
* `BTreeMap` values are modelled as association lists that are strictly
  sorted by key; `collect()` into a `BTreeMap` is modelled by `btreeOfList`,
  which inserts the pairs left to right (later pairs overwrite earlier ones,
  exactly as `BTreeMap::insert` does).
* `HashSet` / `HashMap` values held by the validated in-memory metadata
  types are unordered in Rust; in the model a list represents one iteration
  order of such a collection, and permuted lists represent the same Rust
  value.
* Fallible Rust functions returning `Result<T>` are modelled as
  `Except Error T`.
-/

/-- Rust `String`, modelled as its character list. -/
abbrev Str := List Char

/-- Literal helper: the character list of a Lean string literal. -/
def str (s : String) : Str := s.data

/-- The `SPEC_VERSION` constant of `shims.rs`. -/
def SPEC_VERSION : Str := str "1.0"

/-- `valid_spec_version` from `shims.rs`: accepts exactly `"1.0"` and
`"1.0.0"` (the latter kept for backward compatibility with old roots). -/
def valid_spec_version (other : Str) : Bool :=
  other = str "1.0" || other = str "1.0.0"

/-! ## Datetime codec

`parse_datetime` in `shims.rs` delegates to chrono's
`DateTime::parse_from_rfc3339` followed by `with_timezone(&Utc)`.

Modelled from the spec: chrono's RFC3339 parser is not part of this
repository; following §4.2 of the spec it accepts a date, a literal `T`,
a time, optional fractional seconds of any precision, and either a `Z`
suffix or a numeric UTC-offset suffix, and normalizes the result to UTC.
`format_datetime` is embedded directly from the source (lines 32–42).
-/

/-- Model of chrono's `DateTime<Utc>`: a UTC instant broken into calendar
components plus a nanosecond part.  (chrono's type also admits negative
years; this layer only ever produces and consumes nonnegative ones.) -/
structure DateTime where
  year : Nat
  month : Nat
  day : Nat
  hour : Nat
  minute : Nat
  second : Nat
  nano : Nat
deriving DecidableEq, Repr

/-- Calendar validity (and 4-digit-year representability) of a UTC instant. -/
def DateTime.Valid (dt : DateTime) : Prop :=
  dt.year ≤ 9999 ∧
  1 ≤ dt.month ∧ dt.month ≤ 12 ∧
  1 ≤ dt.day ∧ dt.day ≤ daysInMonth dt.year dt.month ∧
  dt.hour ≤ 23 ∧ dt.minute ≤ 59 ∧ dt.second ≤ 59 ∧
  dt.nano < 1000000000
where
  daysInMonth (y m : Nat) : Nat :=
    if m = 2 then (if y % 4 = 0 && (y % 100 ≠ 0 || y % 400 = 0) then 29 else 28)
    else if m = 4 || m = 6 || m = 9 || m = 11 then 30
    else 31

instance (dt : DateTime) : Decidable dt.Valid := by
  unfold DateTime.Valid; infer_instance

/-- One decimal digit as a character. -/
def digitChar (d : Nat) : Char := Char.ofNat (48 + d)

/-- Two-digit zero-padded rendering (Rust `{:02}` for values below 100). -/
def pad2 (n : Nat) : Str :=
  if n < 100 then [digitChar (n / 10), digitChar (n % 10)]
  else (Nat.toDigits 10 n)

/-- Four-digit zero-padded rendering (Rust `{:04}` for values below 10000). -/
def pad4 (n : Nat) : Str :=
  if n < 10000 then
    [digitChar (n / 1000), digitChar (n / 100 % 10), digitChar (n / 10 % 10),
     digitChar (n % 10)]
  else (Nat.toDigits 10 n)

/-- `format_datetime` from `shims.rs`:
`format!("{:04}-{:02}-{:02}T{:02}:{:02}:{:02}Z", …)`. -/
def format_datetime (ts : DateTime) : Str :=
  pad4 ts.year ++ '-' :: pad2 ts.month ++ '-' :: pad2 ts.day ++
    'T' :: pad2 ts.hour ++ ':' :: pad2 ts.minute ++ ':' :: pad2 ts.second ++ ['Z']

/-- Is `c` an ASCII decimal digit? -/
def isDigitB (c : Char) : Bool := 48 ≤ c.toNat && c.toNat ≤ 57

/-- Numeric value of an ASCII digit character. -/
def digitVal (c : Char) : Nat := c.toNat - 48

/-- Read exactly two digits. -/
def parse2 : Str → Option (Nat × Str)
  | a :: b :: rest =>
    if isDigitB a && isDigitB b then some (digitVal a * 10 + digitVal b, rest)
    else none
  | _ => none

/-- Read exactly four digits. -/
def parse4 : Str → Option (Nat × Str)
  | a :: b :: c :: d :: rest =>
    if isDigitB a && isDigitB b && isDigitB c && isDigitB d then
      some (digitVal a * 1000 + digitVal b * 100 + digitVal c * 10 + digitVal d,
        rest)
    else none
  | _ => none

/-- Expect a literal character. -/
def expectChar (c : Char) : Str → Option Str
  | a :: rest => if a = c then some rest else none
  | [] => none

/-- Nanoseconds denoted by a fraction-digit list (first nine digits count). -/
def nanoOfDigits (ds : List Char) : Nat :=
  ((ds.take 9).foldl (fun n c => n * 10 + digitVal c) 0) *
    10 ^ (9 - min ds.length 9)

/-- Sequencing of parse steps (`Option` bind, written out so that proofs
can reduce it by plain rewriting). -/
def obind {A B : Type} (a : Option A) (f : A → Option B) : Option B :=
  match a with
  | none => none
  | some x => f x

/-- Optional fractional seconds: a `'.'` followed by one or more digits. -/
def parseFrac : Str → Option (Nat × Str)
  | [] => some (0, [])
  | c :: rest =>
    if c = '.' then
      let ds := rest.takeWhile isDigitB
      if ds.isEmpty then none
      else some (nanoOfDigits ds, rest.dropWhile isDigitB)
    else some (0, c :: rest)

/-- Trailing UTC designator: `Z`, or a numeric offset `±hh:mm` (minutes
east of UTC); must consume the rest of the input. -/
def parseOffset : Str → Option Int
  | [] => none
  | sign :: rest =>
    if sign = 'Z' then
      if rest.isEmpty then some 0 else none
    else if sign = '+' || sign = '-' then
      obind (parse2 rest) fun phh =>
      obind (expectChar ':' phh.2) fun rest2 =>
      obind (parse2 rest2) fun pmm =>
      if pmm.2.isEmpty then
        if phh.1 ≤ 23 && pmm.1 ≤ 59 then
          some (if sign = '-' then -((phh.1 : Int) * 60 + pmm.1)
                else (phh.1 : Int) * 60 + pmm.1)
        else none
      else none
    else none

/-- Days since 1970-01-01 of a civil date (Howard Hinnant's algorithm). -/
def daysFromCivil (y : Int) (m d : Nat) : Int :=
  let y : Int := if m ≤ 2 then y - 1 else y
  let era : Int := (if 0 ≤ y then y else y - 399).fdiv 400
  let yoe : Int := y - era * 400
  let mp : Int := ((m : Int) + 9).fmod 12
  let doy : Int := (153 * mp + 2).fdiv 5 + (d : Int) - 1
  let doe : Int := yoe * 365 + yoe.fdiv 4 - yoe.fdiv 100 + doy
  era * 146097 + doe - 719468

/-- Civil date of a count of days since 1970-01-01 (inverse of
`daysFromCivil`). -/
def civilFromDays (z : Int) : Int × Nat × Nat :=
  let z : Int := z + 719468
  let era : Int := (if 0 ≤ z then z else z - 146096).fdiv 146097
  let doe : Int := z - era * 146097
  let yoe : Int := (doe - doe.fdiv 1460 + doe.fdiv 36524 - doe.fdiv 146096).fdiv 365
  let y : Int := yoe + era * 400
  let doy : Int := doe - (365 * yoe + yoe.fdiv 4 - yoe.fdiv 100)
  let mp : Int := (5 * doy + 2).fdiv 153
  let d : Int := doy - (153 * mp + 2).fdiv 5 + 1
  let m : Int := if mp < 10 then mp + 3 else mp - 9
  ((if m ≤ 2 then y + 1 else y), m.toNat, d.toNat)

/-- UTC instant of a count of seconds since the epoch (plus nanoseconds). -/
def dtOfEpoch (e : Int) (nano : Nat) : DateTime :=
  let days : Int := e.fdiv 86400
  let sod : Int := e.fmod 86400
  let c := civilFromDays days
  { year := c.1.toNat, month := c.2.1, day := c.2.2,
    hour := (sod.fdiv 3600).toNat, minute := (sod.fdiv 60).fmod 60 |>.toNat,
    second := (sod.fmod 60).toNat, nano := nano }

/-- Seconds since the epoch of a set of calendar components. -/
def epochOfComponents (y mo d h mi s : Nat) : Int :=
  daysFromCivil (y : Int) mo d * 86400 + (h : Int) * 3600 + (mi : Int) * 60 + s

/-- Modelled from the spec: chrono's `DateTime::parse_from_rfc3339`
followed by `with_timezone(&Utc)` — missing from `src/` (external crate).
Parses `date "T" time [frac] (Z | ±hh:mm)`, validates the calendar ranges,
and normalizes the instant to UTC. -/
def parseRfc3339Utc (l : Str) : Option DateTime :=
  obind (parse4 l) fun py =>
  obind (expectChar '-' py.2) fun l1 =>
  obind (parse2 l1) fun pmo =>
  obind (expectChar '-' pmo.2) fun l2 =>
  obind (parse2 l2) fun pd =>
  obind (expectChar 'T' pd.2) fun l3 =>
  obind (parse2 l3) fun ph =>
  obind (expectChar ':' ph.2) fun l4 =>
  obind (parse2 l4) fun pmi =>
  obind (expectChar ':' pmi.2) fun l5 =>
  obind (parse2 l5) fun ps =>
  obind (parseFrac ps.2) fun pnano =>
  obind (parseOffset pnano.2) fun offMinutes =>
  if 1 ≤ pmo.1 ∧ pmo.1 ≤ 12 ∧ 1 ≤ pd.1 ∧
      pd.1 ≤ DateTime.Valid.daysInMonth py.1 pmo.1 ∧
      ph.1 ≤ 23 ∧ pmi.1 ≤ 59 ∧ ps.1 ≤ 59 then
    if offMinutes = 0 then
      some { year := py.1, month := pmo.1, day := pd.1, hour := ph.1,
             minute := pmi.1, second := ps.1, nano := pnano.1 }
    else
      some (dtOfEpoch
        (epochOfComponents py.1 pmo.1 pd.1 ph.1 pmi.1 ps.1 - offMinutes * 60)
        pnano.1)
  else none

/-- The model of the `Error` enum of rust-tuf, restricted to the variants
this layer produces. -/
inductive Error where
  | encoding (msg : Str)
  | metadataRoleHasDuplicateKeyId (role : Str) (keyId : Str)
deriving DecidableEq, Repr

instance {ε α} [DecidableEq ε] [DecidableEq α] : DecidableEq (Except ε α) := fun
  | .ok a, .ok b =>
    if h : a = b then .isTrue (by rw [h])
    else .isFalse (by intro c; cases c; exact h rfl)
  | .ok _, .error _ => .isFalse (by intro h; cases h)
  | .error _, .ok _ => .isFalse (by intro h; cases h)
  | .error e, .error f =>
    if h : e = f then .isTrue (by rw [h])
    else .isFalse (by intro c; cases c; exact h rfl)

/-- Sequencing of fallible steps (`Except` bind, written out so proofs can
reduce it by plain rewriting); models Rust `?` propagation. -/
def ebind {A B : Type} (a : Except Error A) (f : A → Except Error B) :
    Except Error B :=
  match a with
  | .error e => .error e
  | .ok x => f x

/-- Effectful map over a list (models `collect::<Result<_>>()`): apply `f`
left to right, stopping at the first error. -/
def emapM {A B : Type} (f : A → Except Error B) : List A → Except Error (List B)
  | [] => .ok []
  | a :: rest =>
    ebind (f a) fun b =>
    ebind (emapM f rest) fun bs => .ok (b :: bs)

/-- `parse_datetime` from `shims.rs`: RFC3339 parse mapped into the
`Error::Encoding` variant on failure. -/
def parse_datetime (ts : Str) : Except Error DateTime :=
  match parseRfc3339Utc ts with
  | some dt => .ok dt
  | none => .error (.encoding (str "Can't parse DateTime"))

/-! ## Sorted association maps (`BTreeMap`) and the two map decoders -/

section Maps

variable {K : Type} {V : Type} [LinearOrder K]

/-- Lookup in an association list (`BTreeMap::get`). -/
def mfind (k : K) : List (K × V) → Option V
  | [] => none
  | (k₁, v₁) :: rest => if k = k₁ then some v₁ else mfind k rest

/-- `BTreeMap::insert`: place `(k, v)` at its sorted position, replacing an
existing entry with the same key. -/
def minsert (k : K) (v : V) : List (K × V) → List (K × V)
  | [] => [(k, v)]
  | (k₁, v₁) :: rest =>
    if k < k₁ then (k, v) :: (k₁, v₁) :: rest
    else if k = k₁ then (k, v) :: rest
    else (k₁, v₁) :: minsert k v rest

/-- Tail of `btreeOfList`: insert the pairs left to right into `acc`. -/
def btreeGo : List (K × V) → List (K × V) → List (K × V)
  | [], acc => acc
  | (k, v) :: rest, acc => btreeGo rest (minsert k v acc)

/-- `collect()` of a pair iterator into a `BTreeMap`: left-to-right
insertion, so a later pair with the same key overwrites an earlier one. -/
def btreeOfList (l : List (K × V)) : List (K × V) := btreeGo l []

/-- The error produced by `deserialize_reject_duplicates` on a repeated
key (`M::Error::custom("Cannot have duplicate keys")`). -/
def duplicateKeyError : Error := .encoding (str "Cannot have duplicate keys")

/-- Tail of `rejectDupDecode`. -/
def rejectGo : List (K × V) → List (K × V) → Except Error (List (K × V))
  | acc, [] => .ok acc
  | acc, (k, v) :: rest =>
    if (mfind k acc).isSome then .error duplicateKeyError
    else rejectGo (minsert k v acc) rest

/-- `deserialize_reject_duplicates::deserialize` from `shims.rs`: fold the
key/value pairs of the wire map into a `BTreeMap`, failing the moment a
key that is already present is inserted again. -/
def rejectDupDecode (l : List (K × V)) : Except Error (List (K × V)) :=
  rejectGo [] l

/-- serde's default `Deserialize` for `BTreeMap`: plain left-to-right
insertion with no duplicate check, so a repeated key is resolved
last-write-wins.  (Used for every map field of `shims.rs` that does not
carry the `deserialize_reject_duplicates` attribute.) -/
def serdeDefaultMapDecode (l : List (K × V)) : Except Error (List (K × V)) :=
  .ok (btreeOfList l)

/-- Strict key order on map entries. -/
def entryLt (a b : K × V) : Prop := a.1 < b.1

/-- A well-formed `BTreeMap`: entries strictly sorted by key. -/
def SortedMap (l : List (K × V)) : Prop := l.Sorted entryLt

instance : DecidableRel (entryLt : K × V → K × V → Prop) :=
  fun a b => inferInstanceAs (Decidable (a.1 < b.1))

instance (l : List (K × V)) : Decidable (SortedMap l) := by
  unfold SortedMap; infer_instance

instance : IsTrans (K × V) entryLt :=
  ⟨fun _ _ _ h₁ h₂ => lt_trans h₁ h₂⟩

instance : IsAntisymm (K × V) entryLt :=
  ⟨fun _ _ h₁ h₂ => absurd h₂ (lt_asymm h₁)⟩

/-- First-of-two on options (used to state last-write-wins lookups). -/
def ofirst : Option V → Option V → Option V
  | some v, _ => some v
  | none, b => b

end Maps

/-! ## Opaque crypto values and role tags -/

/-- `crypto::KeyId`, consumed here as an opaque string. -/
abbrev KeyId := Str

/-- Model of `crypto::PublicKey` (out of scope for this layer, consumed as
an opaque typed value).  `keyid` models the identifier that
`PublicKey::key_id()` recomputes from the key material. -/
structure PublicKey where
  keyid : KeyId
  keytype : Str
  scheme : Str
  material : Str
deriving DecidableEq, Repr

/-- `metadata::Role`: the four fixed role tags. -/
inductive Role where
  | root
  | timestamp
  | snapshot
  | targets
deriving DecidableEq, Repr

/-- The `{:?}` (Debug) rendering of a role tag, as interpolated into the
"Attempted to decode … metadata labeled as {:?}" error messages. -/
def Role.debugStr : Role → Str
  | .root => str "Root"
  | .timestamp => str "Timestamp"
  | .snapshot => str "Snapshot"
  | .targets => str "Targets"

/-! ## Validated in-memory metadata

The `metadata::*` types live in `src/metadata.rs`, which is not part of
the sources under review; they are modelled from the spec's data model
(§3).  Unordered Rust collections (`HashMap` / `HashSet`) are stored
canonically — maps strictly sorted by key, key-id and path sets sorted and
duplicate-free — so that Lean's structural equality coincides with Rust's
(order-insensitive) equality of these collections.
-/

namespace metadata

/-- Modelled from the spec (§3): a role's threshold plus its duplicate-free
key-identifier set. -/
structure RoleDefinition where
  threshold : Nat
  key_ids : List KeyId
deriving DecidableEq, Repr

/-- Modelled from the spec (§4.4): construct the validated `RoleDefinition`
from the deduplicated key-id set.  No further validation is specified. -/
def RoleDefinition.new (threshold : Nat) (key_ids : List KeyId) :
    Except Error RoleDefinition :=
  .ok ⟨threshold, List.insertionSort (· ≤ ·) key_ids.dedup⟩

/-- Modelled from the spec (§3): version, optional byte length, and a
hash-algorithm → hash-value map. -/
structure MetadataDescription where
  version : Nat
  length : Option Nat
  hashes : List (Str × Str)
deriving DecidableEq, Repr

/-- Modelled from the spec: plain structural constructor (no cross-field
validation, §2 "leaf value codecs"). -/
def MetadataDescription.new (version : Nat) (length : Option Nat)
    (hashes : List (Str × Str)) : Except Error MetadataDescription :=
  .ok ⟨version, length, btreeOfList hashes⟩

/-- Modelled from the spec (§3): byte length, hash map, and free-form
custom metadata (`serde_json::Value` modelled as an opaque string). -/
structure TargetDescription where
  length : Nat
  hashes : List (Str × Str)
  custom : List (Str × Str)
deriving DecidableEq, Repr

/-- Modelled from the spec: plain structural constructor. -/
def TargetDescription.new (length : Nat) (hashes : List (Str × Str))
    (custom : List (Str × Str)) : Except Error TargetDescription :=
  .ok ⟨length, btreeOfList hashes, btreeOfList custom⟩

/-- Modelled from the spec (§3): one delegated-signing entry. -/
structure Delegation where
  name : Str
  terminating : Bool
  threshold : Nat
  key_ids : List KeyId
  paths : List Str
deriving DecidableEq, Repr

/-- Modelled from the spec (§4.5): construct the `Delegation` from the
deduplicated key-id and path sets. -/
def Delegation.new (name : Str) (terminating : Bool) (threshold : Nat)
    (key_ids : List KeyId) (paths : List Str) : Except Error Delegation :=
  .ok ⟨name, terminating, threshold,
    List.insertionSort (· ≤ ·) key_ids.dedup,
    List.insertionSort (· ≤ ·) paths.dedup⟩

/-- Modelled from the spec (§3): a key pool plus an ordered list of
delegation entries. -/
structure Delegations where
  keys : List (KeyId × PublicKey)
  roles : List Delegation
deriving DecidableEq, Repr

/-- Modelled from the spec (§4.6): decode preserves the stored list order
of the delegation entries as-is. -/
def Delegations.new (keys : List (KeyId × PublicKey))
    (roles : List Delegation) : Except Error Delegations :=
  .ok ⟨btreeOfList keys, roles⟩

/-- `metadata::MetadataPath`, modelled as its underlying string. -/
abbrev MetadataPath := Str

/-- Modelled from the spec: path validation is out of scope for this
layer (§4.7 makes the missing `.json` suffix the only snapshot decode
failure beyond the envelope checks). -/
def MetadataPath.new (s : Str) : Except Error MetadataPath := .ok s

/-- Modelled from the spec (§3): the validated root document. -/
structure RootMetadata where
  version : Nat
  expires : DateTime
  consistent_snapshot : Bool
  keys : List (KeyId × PublicKey)
  root : RoleDefinition
  snapshot : RoleDefinition
  targets : RoleDefinition
  timestamp : RoleDefinition
deriving DecidableEq, Repr

/-- Modelled from the spec: structural constructor; the key pool is a
`HashMap`, stored canonically sorted. -/
def RootMetadata.new (version : Nat) (expires : DateTime)
    (consistent_snapshot : Bool) (keys : List (KeyId × PublicKey))
    (root snapshot targets timestamp : RoleDefinition) :
    Except Error RootMetadata :=
  .ok ⟨version, expires, consistent_snapshot, btreeOfList keys,
    root, snapshot, targets, timestamp⟩

/-- Modelled from the spec (§3): the validated timestamp document. -/
structure TimestampMetadata where
  version : Nat
  expires : DateTime
  snapshot : MetadataDescription
deriving DecidableEq, Repr

/-- Modelled from the spec: structural constructor. -/
def TimestampMetadata.new (version : Nat) (expires : DateTime)
    (snapshot : MetadataDescription) : Except Error TimestampMetadata :=
  .ok ⟨version, expires, snapshot⟩

/-- Modelled from the spec (§3): the validated snapshot document. -/
structure SnapshotMetadata where
  version : Nat
  expires : DateTime
  meta : List (MetadataPath × MetadataDescription)
deriving DecidableEq, Repr

/-- Modelled from the spec: structural constructor; the path map is a
`HashMap`, stored canonically sorted. -/
def SnapshotMetadata.new (version : Nat) (expires : DateTime)
    (meta : List (MetadataPath × MetadataDescription)) :
    Except Error SnapshotMetadata :=
  .ok ⟨version, expires, btreeOfList meta⟩

/-- Modelled from the spec (§3): the validated targets document. -/
structure TargetsMetadata where
  version : Nat
  expires : DateTime
  targets : List (Str × TargetDescription)
  delegations : Delegations
deriving DecidableEq, Repr

/-- Modelled from the spec: structural constructor; the target map is a
`HashMap`, stored canonically sorted. -/
def TargetsMetadata.new (version : Nat) (expires : DateTime)
    (targets : List (Str × TargetDescription)) (delegations : Delegations) :
    Except Error TargetsMetadata :=
  .ok ⟨version, expires, btreeOfList targets, delegations⟩

end metadata

/-! ## The wire shims of `shims.rs` -/

namespace shims

/-- `shims::RoleDefinition<M>` (wire form): threshold plus `keyids` list. -/
structure RoleDefinition where
  threshold : Nat
  key_ids : List KeyId
deriving DecidableEq, Repr

/-- `From<&metadata::RoleDefinition<M>> for RoleDefinition<M>`: sort the
key ids so they are in a stable order. -/
def RoleDefinition.from_metadata (role : metadata.RoleDefinition) :
    RoleDefinition :=
  ⟨role.threshold, List.insertionSort (· ≤ ·) role.key_ids⟩

/-- The insert-and-check loop of `TryFrom<RoleDefinition<M>>`: the first
key id of the list that repeats an earlier one, if any. -/
def firstDupGo : List KeyId → List KeyId → Option KeyId
  | _, [] => none
  | seen, k :: rest =>
    if k ∈ seen then some k else firstDupGo (k :: seen) rest

/-- First repeated element of a key-id list. -/
def firstDup (l : List KeyId) : Option KeyId := firstDupGo [] l

/-- `TryFrom<RoleDefinition<M>> for metadata::RoleDefinition<M>`
(`role` is the name of `M::ROLE`): fail on a repeated key id, naming the
role and the offending id, else construct from the deduplicated set. -/
def RoleDefinition.try_into (role : Str) (definition : RoleDefinition) :
    Except Error metadata.RoleDefinition :=
  match firstDup definition.key_ids with
  | some key_id => .error (.metadataRoleHasDuplicateKeyId role key_id)
  | none => metadata.RoleDefinition.new definition.threshold definition.key_ids

/-- `shims::Delegation` (wire form). -/
structure Delegation where
  name : Str
  terminating : Bool
  threshold : Nat
  key_ids : List KeyId
  paths : List Str
deriving DecidableEq, Repr

/-- `From<&metadata::Delegation> for Delegation`: sort both the path set
and the key-id set before emission. -/
def Delegation.from_metadata (delegation : metadata.Delegation) : Delegation :=
  ⟨delegation.name, delegation.terminating, delegation.threshold,
    List.insertionSort (· ≤ ·) delegation.key_ids,
    List.insertionSort (· ≤ ·) delegation.paths⟩

/-- `TryFrom<Delegation> for metadata::Delegation`: collect each list into
a `HashSet` and fail if the set is smaller than the list. -/
def Delegation.try_into (delegation : Delegation) :
    Except Error metadata.Delegation :=
  if delegation.key_ids.dedup.length ≠ delegation.key_ids.length then
    .error (.encoding (str "Non-unique delegation key IDs."))
  else if delegation.paths.dedup.length ≠ delegation.paths.length then
    .error (.encoding (str "Non-unique delegation paths."))
  else
    metadata.Delegation.new delegation.name delegation.terminating
      delegation.threshold delegation.key_ids delegation.paths

/-- `shims::Delegations` (wire form). -/
structure Delegations where
  keys : List (KeyId × PublicKey)
  roles : List Delegation
deriving DecidableEq, Repr

/-- `From<&metadata::Delegations> for Delegations`: render each delegation,
then sort the list by delegated-role name ("we want our roles in a
consistent order"); the key pool is collected into a `BTreeMap`. -/
def Delegations.from_metadata (delegations : metadata.Delegations) :
    Delegations :=
  ⟨btreeOfList delegations.keys,
    List.insertionSort (fun a b => a.name ≤ b.name)
      (delegations.roles.map Delegation.from_metadata)⟩

/-- `TryFrom<Delegations> for metadata::Delegations`: decode each
delegation entry (propagating its errors), preserving list order. -/
def Delegations.try_into (delegations : Delegations) :
    Except Error metadata.Delegations :=
  ebind (emapM Delegation.try_into delegations.roles) fun roles =>
  metadata.Delegations.new delegations.keys roles

/-- Serde-level decode of the `keys` field of `shims::Delegations`
(attribute `deserialize_reject_duplicates`). -/
def Delegations.decode_keys :
    List (KeyId × PublicKey) → Except Error (List (KeyId × PublicKey)) :=
  rejectDupDecode

/-- `shims::TargetDescription` (wire form). -/
structure TargetDescription where
  length : Nat
  hashes : List (Str × Str)
  custom : List (Str × Str)
deriving DecidableEq, Repr

/-- `From<&metadata::TargetDescription> for TargetDescription`. -/
def TargetDescription.from_metadata (description : metadata.TargetDescription) :
    TargetDescription :=
  ⟨description.length, btreeOfList description.hashes,
    btreeOfList description.custom⟩

/-- `TryFrom<TargetDescription> for metadata::TargetDescription`. -/
def TargetDescription.try_into (description : TargetDescription) :
    Except Error metadata.TargetDescription :=
  metadata.TargetDescription.new description.length description.hashes
    description.custom

/-- Serde-level decode of the `hashes` field of `shims::TargetDescription`:
no `deserialize_reject_duplicates` attribute, so serde's default
last-write-wins map decoding applies. -/
def TargetDescription.decode_hashes :
    List (Str × Str) → Except Error (List (Str × Str)) :=
  serdeDefaultMapDecode

/-- Serde-level decode of the `custom` field of `shims::TargetDescription`:
serde default (last-write-wins), no duplicate rejection. -/
def TargetDescription.decode_custom :
    List (Str × Str) → Except Error (List (Str × Str)) :=
  serdeDefaultMapDecode

/-- `shims::MetadataDescription<M>` (wire form). -/
structure MetadataDescription where
  version : Nat
  length : Option Nat
  hashes : List (Str × Str)
deriving DecidableEq, Repr

/-- `From<&metadata::MetadataDescription<M>>`. -/
def MetadataDescription.from_metadata
    (description : metadata.MetadataDescription) : MetadataDescription :=
  ⟨description.version, description.length, btreeOfList description.hashes⟩

/-- `TryFrom<MetadataDescription<M>> for metadata::MetadataDescription<M>`. -/
def MetadataDescription.try_into (description : MetadataDescription) :
    Except Error metadata.MetadataDescription :=
  metadata.MetadataDescription.new description.version description.length
    description.hashes

/-- Serde-level decode of the `hashes` field of
`shims::MetadataDescription`: serde default (last-write-wins). -/
def MetadataDescription.decode_hashes :
    List (Str × Str) → Except Error (List (Str × Str)) :=
  serdeDefaultMapDecode

/-- `shims::RoleDefinitions`: the fixed four members of the root `roles`
object (each field deserializes through the role-definition codec). -/
structure RoleDefinitions where
  root : metadata.RoleDefinition
  snapshot : metadata.RoleDefinition
  targets : metadata.RoleDefinition
  timestamp : metadata.RoleDefinition
deriving DecidableEq, Repr

/-- `shims::RootMetadata` (wire form). -/
structure RootMetadata where
  typ : Role
  spec_version : Str
  version : Nat
  consistent_snapshot : Bool
  expires : Str
  keys : List (KeyId × PublicKey)
  roles : RoleDefinitions
deriving DecidableEq, Repr

/-- `RootMetadata::from`. -/
def RootMetadata.from_metadata (meta : metadata.RootMetadata) : RootMetadata :=
  { typ := .root
    spec_version := SPEC_VERSION
    version := meta.version
    expires := format_datetime meta.expires
    consistent_snapshot := meta.consistent_snapshot
    keys := btreeOfList meta.keys
    roles := ⟨meta.root, meta.snapshot, meta.targets, meta.timestamp⟩ }

/-- `RootMetadata::try_into`: check the role tag and spec version, drop
keys whose stored id differs from the recomputed id (TUF 0.9 legacy), and
construct the validated value. -/
def RootMetadata.try_into (s : RootMetadata) :
    Except Error metadata.RootMetadata :=
  if s.typ ≠ Role.root then
    .error (.encoding
      (str "Attempted to decode root metadata labeled as " ++ s.typ.debugStr))
  else if ¬valid_spec_version s.spec_version then
    .error (.encoding (str "Unknown spec version " ++ s.spec_version))
  else
    ebind (parse_datetime s.expires) fun expires =>
    metadata.RootMetadata.new s.version expires s.consistent_snapshot
      (s.keys.filter (fun p => decide (p.1 = p.2.keyid)))
      s.roles.root s.roles.snapshot s.roles.targets s.roles.timestamp

/-- Serde-level decode of the `keys` field of `shims::RootMetadata`
(attribute `deserialize_reject_duplicates`). -/
def RootMetadata.decode_keys :
    List (KeyId × PublicKey) → Except Error (List (KeyId × PublicKey)) :=
  rejectDupDecode

/-- `shims::TimestampMetadata` (wire form); its `meta` field is the
fixed-shape wrapper `{"snapshot.json": description}`. -/
structure TimestampMetadata where
  typ : Role
  spec_version : Str
  version : Nat
  expires : Str
  snapshot : metadata.MetadataDescription
deriving DecidableEq, Repr

/-- `TimestampMetadata::from`. -/
def TimestampMetadata.from_metadata (m : metadata.TimestampMetadata) :
    TimestampMetadata :=
  ⟨.timestamp, SPEC_VERSION, m.version, format_datetime m.expires, m.snapshot⟩

/-- `TimestampMetadata::try_into`. -/
def TimestampMetadata.try_into (s : TimestampMetadata) :
    Except Error metadata.TimestampMetadata :=
  if s.typ ≠ Role.timestamp then
    .error (.encoding
      (str "Attempted to decode timestamp metadata labeled as " ++
        s.typ.debugStr))
  else if ¬valid_spec_version s.spec_version then
    .error (.encoding (str "Unknown spec version " ++ s.spec_version))
  else
    ebind (parse_datetime s.expires) fun expires =>
    metadata.TimestampMetadata.new s.version expires s.snapshot

/-- `shims::SnapshotMetadata` (wire form). -/
structure SnapshotMetadata where
  typ : Role
  spec_version : Str
  version : Nat
  expires : Str
  meta : List (Str × metadata.MetadataDescription)
deriving DecidableEq, Repr

/-- `SnapshotMetadata::from`: append `.json` to every logical path. -/
def SnapshotMetadata.from_metadata (m : metadata.SnapshotMetadata) :
    SnapshotMetadata :=
  ⟨.snapshot, SPEC_VERSION, m.version, format_datetime m.expires,
    btreeOfList (m.meta.map (fun p => (p.1 ++ str ".json", p.2)))⟩

/-- Does the wire path end with `.json`? (`str::ends_with`). -/
def endsWithJson (p : Str) : Bool :=
  decide (5 ≤ p.length) && decide (p.drop (p.length - 5) = str ".json")

/-- Strip the 5-character `.json` suffix (`str::split_at(len - 5).0`). -/
def stripJson (p : Str) : Str := p.take (p.length - 5)

/-- One entry of the snapshot `meta` conversion: verify and strip the
`.json` suffix, failing with a message naming the offending key. -/
def stripJsonEntry (p : Str × metadata.MetadataDescription) :
    Except Error (metadata.MetadataPath × metadata.MetadataDescription) :=
  if endsWithJson p.1 then
    ebind (metadata.MetadataPath.new (stripJson p.1)) fun path =>
    .ok (path, p.2)
  else
    .error (.encoding (str "Metadata does not end with .json: " ++ p.1))

/-- `SnapshotMetadata::try_into`. -/
def SnapshotMetadata.try_into (s : SnapshotMetadata) :
    Except Error metadata.SnapshotMetadata :=
  if s.typ ≠ Role.snapshot then
    .error (.encoding
      (str "Attempted to decode snapshot metadata labeled as " ++
        s.typ.debugStr))
  else if ¬valid_spec_version s.spec_version then
    .error (.encoding (str "Unknown spec version " ++ s.spec_version))
  else
    ebind (parse_datetime s.expires) fun expires =>
    ebind (emapM stripJsonEntry s.meta) fun entries =>
    metadata.SnapshotMetadata.new s.version expires entries

/-- Serde-level decode of the `meta` field of `shims::SnapshotMetadata`
(attribute `deserialize_reject_duplicates`). -/
def SnapshotMetadata.decode_meta :
    List (Str × metadata.MetadataDescription) →
      Except Error (List (Str × metadata.MetadataDescription)) :=
  rejectDupDecode

/-- `shims::TargetsMetadata` (wire form). -/
structure TargetsMetadata where
  typ : Role
  spec_version : Str
  version : Nat
  expires : Str
  targets : List (Str × metadata.TargetDescription)
  delegations : metadata.Delegations
deriving DecidableEq, Repr

/-- `TargetsMetadata::from`. -/
def TargetsMetadata.from_metadata (m : metadata.TargetsMetadata) :
    TargetsMetadata :=
  ⟨.targets, SPEC_VERSION, m.version, format_datetime m.expires,
    btreeOfList m.targets, m.delegations⟩

/-- `TargetsMetadata::try_into`. -/
def TargetsMetadata.try_into (s : TargetsMetadata) :
    Except Error metadata.TargetsMetadata :=
  if s.typ ≠ Role.targets then
    .error (.encoding
      (str "Attempted to decode targets metadata labeled as " ++
        s.typ.debugStr))
  else if ¬valid_spec_version s.spec_version then
    .error (.encoding (str "Unknown spec version " ++ s.spec_version))
  else
    ebind (parse_datetime s.expires) fun expires =>
    metadata.TargetsMetadata.new s.version expires s.targets s.delegations

/-- Serde-level decode of the `targets` field of `shims::TargetsMetadata`:
no `deserialize_reject_duplicates` attribute, so serde's default
last-write-wins map decoding applies. -/
def TargetsMetadata.decode_targets :
    List (Str × metadata.TargetDescription) →
      Except Error (List (Str × metadata.TargetDescription)) :=
  serdeDefaultMapDecode

end shims

/-! ## Validity of in-memory metadata values

A value is *valid* when it can arise from a successful decode (or from
direct validated construction): its expiry is a calendar-valid UTC instant
with a four-digit year, its canonical maps are strictly sorted, and — for
root metadata — every key-pool entry's stored identifier equals the
identifier recomputed from the key material (spec §3 invariant 6 together
with §4.7 step 3: decode always filters mismatched entries out).
-/

/-- Valid in-memory root metadata. -/
def metadata.RootMetadata.Valid (m : metadata.RootMetadata) : Prop :=
  m.expires.Valid ∧ SortedMap m.keys ∧ ∀ p ∈ m.keys, p.1 = p.2.keyid

instance (m : metadata.RootMetadata) : Decidable m.Valid := by
  unfold metadata.RootMetadata.Valid; infer_instance

/-- Valid in-memory timestamp metadata. -/
def metadata.TimestampMetadata.Valid (m : metadata.TimestampMetadata) : Prop :=
  m.expires.Valid

instance (m : metadata.TimestampMetadata) : Decidable m.Valid := by
  unfold metadata.TimestampMetadata.Valid; infer_instance

/-- Valid in-memory snapshot metadata. -/
def metadata.SnapshotMetadata.Valid (m : metadata.SnapshotMetadata) : Prop :=
  m.expires.Valid ∧ SortedMap m.meta

instance (m : metadata.SnapshotMetadata) : Decidable m.Valid := by
  unfold metadata.SnapshotMetadata.Valid; infer_instance

/-- Valid in-memory targets metadata. -/
def metadata.TargetsMetadata.Valid (m : metadata.TargetsMetadata) : Prop :=
  m.expires.Valid ∧ SortedMap m.targets

instance (m : metadata.TargetsMetadata) : Decidable m.Valid := by
  unfold metadata.TargetsMetadata.Valid; infer_instance

/-- An RFC3339-conformant rendering in the shape the spec's §4.2 accepts:
date, literal `T`, time, optional fraction digits, and either `Z` or a
signed numeric offset `±hh:mm`. -/
def renderRfc3339 (y mo d h mi s : Nat) (frac : List Nat)
    (off : Option (Bool × Nat × Nat)) : Str :=
  pad4 y ++ '-' :: pad2 mo ++ '-' :: pad2 d ++ 'T' :: pad2 h ++
    ':' :: pad2 mi ++ ':' :: pad2 s ++
    (if frac.isEmpty then [] else '.' :: frac.map digitChar) ++
    (match off with
     | none => ['Z']
     | some (neg, oh, om) =>
       (if neg then '-' else '+') :: pad2 oh ++ ':' :: pad2 om)

instance : IsTotal shims.Delegation (fun a b => a.name ≤ b.name) :=
  ⟨fun a b => le_total a.name b.name⟩

instance : IsTrans shims.Delegation (fun a b => a.name ≤ b.name) :=
  ⟨fun _ _ _ h₁ h₂ => le_trans h₁ h₂⟩

/-! ## Properties of the map codecs -/

section MapLemmas

variable {K : Type} {V : Type} [LinearOrder K]

theorem mfind_eq_none {k : K} {m : List (K × V)} :
    mfind k m = none ↔ k ∉ m.map Prod.fst := by
  induction m with
  | nil => simp [mfind]
  | cons p rest ih =>
    obtain ⟨k₁, v₁⟩ := p
    by_cases h : k = k₁ <;> simp [mfind, h, ih]

theorem mfind_minsert {k k₁ : K} {v₁ : V} {m : List (K × V)} :
    mfind k (minsert k₁ v₁ m) = if k = k₁ then some v₁ else mfind k m := by
  induction m with
  | nil => simp [minsert, mfind]
  | cons p rest ih =>
    obtain ⟨k₂, v₂⟩ := p
    by_cases hlt : k₁ < k₂
    · by_cases h1 : k = k₁ <;> simp [minsert, mfind, hlt, h1]
    · by_cases heq : k₁ = k₂
      · by_cases h1 : k = k₁ <;>
          simp [minsert, mfind, hlt, heq, heq ▸ h1, h1]
      · have heq' : ¬k₂ = k₁ := fun e => heq e.symm
        by_cases h1 : k = k₁ <;> by_cases h2 : k = k₂
        · exact absurd (h1.symm.trans h2) heq
        · subst h1; simp [minsert, mfind, hlt, heq, h2, ih]
        · simp [minsert, mfind, hlt, heq, heq', h1, h2]
        · simp [minsert, mfind, hlt, heq, h1, h2, ih]

theorem mem_minsert {k : K} {v : V} {m : List (K × V)} {p : K × V}
    (h : p ∈ minsert k v m) : p = (k, v) ∨ p ∈ m := by
  induction m with
  | nil => simpa [minsert] using h
  | cons q rest ih =>
    obtain ⟨k₂, v₂⟩ := q
    by_cases hlt : k < k₂
    · rw [minsert, if_pos hlt] at h
      simpa using h
    · by_cases heq : k = k₂
      · rw [minsert, if_neg hlt, if_pos heq] at h
        rcases List.mem_cons.mp h with h | h
        · exact .inl h
        · exact .inr (List.mem_cons_of_mem _ h)
      · rw [minsert, if_neg hlt, if_neg heq] at h
        rcases List.mem_cons.mp h with h | h
        · exact .inr (h ▸ List.mem_cons_self _ _)
        · rcases ih h with h | h
          · exact .inl h
          · exact .inr (List.mem_cons_of_mem _ h)

theorem perm_minsert {k : K} {v : V} {m : List (K × V)}
    (h : k ∉ m.map Prod.fst) :
    List.Perm (minsert k v m) ((k, v) :: m) := by
  induction m with
  | nil => simp [minsert]
  | cons p rest ih =>
    obtain ⟨k₂, v₂⟩ := p
    simp only [List.map_cons, List.mem_cons] at h
    push_neg at h
    obtain ⟨hne, hmem⟩ := h
    by_cases hlt : k < k₂
    · simp [minsert, hlt]
    · have h1 : minsert k v ((k₂, v₂) :: rest) = (k₂, v₂) :: minsert k v rest := by
        rw [minsert, if_neg hlt, if_neg hne]
      rw [h1]
      exact ((ih hmem).cons _).trans (List.Perm.swap _ _ _)

theorem sorted_minsert {k : K} {v : V} {m : List (K × V)}
    (h : SortedMap m) : SortedMap (minsert k v m) := by
  induction m with
  | nil => simp [SortedMap, minsert]
  | cons p rest ih =>
    obtain ⟨k₂, v₂⟩ := p
    rw [SortedMap, List.sorted_cons] at h
    obtain ⟨hhead, htail⟩ := h
    by_cases hlt : k < k₂
    · rw [SortedMap, minsert, if_pos hlt, List.sorted_cons]
      refine ⟨?_, ?_⟩
      · rintro ⟨k₃, v₃⟩ hmem
        rcases List.mem_cons.mp hmem with h | h
        · cases h; exact hlt
        · exact lt_trans hlt (hhead _ h)
      · rw [List.sorted_cons]; exact ⟨hhead, htail⟩
    · by_cases heq : k = k₂
      · rw [SortedMap, minsert, if_neg hlt, if_pos heq, List.sorted_cons]
        exact ⟨fun b hb => heq ▸ hhead b hb, htail⟩
      · rw [SortedMap, minsert, if_neg hlt, if_neg heq, List.sorted_cons]
        refine ⟨?_, ih htail⟩
        rintro ⟨k₃, v₃⟩ hmem
        rcases mem_minsert hmem with h | h
        · cases h
          exact lt_of_le_of_ne (le_of_not_lt hlt) (fun e => heq e.symm)
        · exact hhead _ h

theorem sorted_btreeGo :
    ∀ (l acc : List (K × V)), SortedMap acc → SortedMap (btreeGo l acc)
  | [], _, h => h
  | (_k, _v) :: rest, _acc, h => sorted_btreeGo rest _ (sorted_minsert h)

theorem sorted_btreeOfList (l : List (K × V)) : SortedMap (btreeOfList l) :=
  sorted_btreeGo l [] (List.sorted_nil)

theorem sortedMap_nodup_keys {m : List (K × V)} (h : SortedMap m) :
    (m.map Prod.fst).Nodup := by
  rw [SortedMap, List.Sorted] at h
  have : (m.map Prod.fst).Pairwise (· < ·) := by
    rw [List.pairwise_map]
    exact h
  exact this.imp ne_of_lt

theorem perm_btreeGo :
    ∀ (l acc : List (K × V)),
      (acc.map Prod.fst ++ l.map Prod.fst).Nodup →
      List.Perm (btreeGo l acc) (l ++ acc) := by
  intro l
  induction l with
  | nil => intro acc _; simp [btreeGo]
  | cons p rest ih =>
    rintro acc h
    obtain ⟨k, v⟩ := p
    have hperm : List.Perm (acc.map Prod.fst ++ (k :: rest.map Prod.fst))
        (k :: (acc.map Prod.fst ++ rest.map Prod.fst)) := List.perm_middle
    have h' : (k :: (acc.map Prod.fst ++ rest.map Prod.fst)).Nodup :=
      hperm.nodup_iff.mp (by simpa using h)
    rw [List.nodup_cons, List.mem_append] at h'
    obtain ⟨hk, hnd⟩ := h'
    push_neg at hk
    have hkacc : k ∉ acc.map Prod.fst := hk.1
    have hins : List.Perm (minsert k v acc) ((k, v) :: acc) :=
      perm_minsert hkacc
    have hinskeys : List.Perm ((minsert k v acc).map Prod.fst)
        (k :: acc.map Prod.fst) := hins.map Prod.fst
    have hnd' : ((minsert k v acc).map Prod.fst ++ rest.map Prod.fst).Nodup := by
      refine ((hinskeys.append_right _).nodup_iff).mpr ?_
      have : List.Perm ((k :: acc.map Prod.fst) ++ rest.map Prod.fst)
          (acc.map Prod.fst ++ (k :: rest.map Prod.fst)) := List.perm_middle.symm
      exact this.nodup_iff.mpr (by simpa using h)
    have := ih (minsert k v acc) hnd'
    exact this.trans ((hins.append_left rest).trans List.perm_middle)

theorem perm_btreeOfList {l : List (K × V)} (h : (l.map Prod.fst).Nodup) :
    List.Perm (btreeOfList l) l := by
  have := perm_btreeGo l [] (by simpa using h)
  simpa [btreeOfList] using this

theorem btree_canonical {l m : List (K × V)} (hperm : List.Perm l m)
    (hnd : (m.map Prod.fst).Nodup) (hs : SortedMap m) : btreeOfList l = m := by
  have hl : (l.map Prod.fst).Nodup := ((hperm.map Prod.fst).nodup_iff).mpr hnd
  exact List.eq_of_perm_of_sorted ((perm_btreeOfList hl).trans hperm)
    (sorted_btreeOfList l) hs

theorem btree_sorted_self {l : List (K × V)} (h : SortedMap l) :
    btreeOfList l = l :=
  btree_canonical (List.Perm.refl l) (sortedMap_nodup_keys h) h

theorem ofirst_none {a : Option V} : ofirst a none = a := by
  cases a <;> rfl

theorem mfind_append {k : K} {a b : List (K × V)} :
    mfind k (a ++ b) = ofirst (mfind k a) (mfind k b) := by
  induction a with
  | nil => simp [mfind, ofirst]
  | cons p rest ih =>
    obtain ⟨k₁, v₁⟩ := p
    by_cases h : k = k₁ <;> simp [mfind, h, ih, ofirst]

theorem mfind_btreeGo {k : K} :
    ∀ (l acc : List (K × V)),
      mfind k (btreeGo l acc) = ofirst (mfind k l.reverse) (mfind k acc) := by
  intro l
  induction l with
  | nil => intro acc; simp [btreeGo, mfind, ofirst]
  | cons p rest ih =>
    intro acc
    obtain ⟨k₁, v₁⟩ := p
    rw [btreeGo, ih, List.reverse_cons, mfind_append]
    by_cases h : k = k₁ <;>
      cases hrest : mfind k rest.reverse <;>
      simp [mfind_minsert, mfind, h, hrest, ofirst]

theorem mfind_btreeOfList {k : K} {l : List (K × V)} :
    mfind k (btreeOfList l) = mfind k l.reverse := by
  rw [btreeOfList, mfind_btreeGo]
  simp [mfind, ofirst_none]

theorem rejectGo_ok :
    ∀ (l acc : List (K × V)),
      (acc.map Prod.fst ++ l.map Prod.fst).Nodup →
      rejectGo acc l = .ok (btreeGo l acc) := by
  intro l
  induction l with
  | nil => intro acc _; rfl
  | cons p rest ih =>
    intro acc h
    obtain ⟨k, v⟩ := p
    have hmid : List.Perm (acc.map Prod.fst ++ (k :: rest.map Prod.fst))
        (k :: (acc.map Prod.fst ++ rest.map Prod.fst)) := List.perm_middle
    have h' := (hmid.nodup_iff.mp (by simpa using h))
    rw [List.nodup_cons, List.mem_append] at h'
    push_neg at h'
    have hkacc : k ∉ acc.map Prod.fst := h'.1.1
    have hnone : mfind k acc = none := mfind_eq_none.mpr hkacc
    rw [rejectGo, hnone]
    have hinskeys : List.Perm ((minsert k v acc).map Prod.fst)
        (k :: acc.map Prod.fst) := (perm_minsert hkacc).map Prod.fst
    have hnd' : ((minsert k v acc).map Prod.fst ++ rest.map Prod.fst).Nodup := by
      refine ((hinskeys.append_right _).nodup_iff).mpr ?_
      have : List.Perm ((k :: acc.map Prod.fst) ++ rest.map Prod.fst)
          (acc.map Prod.fst ++ (k :: rest.map Prod.fst)) := List.perm_middle.symm
      exact this.nodup_iff.mpr (by simpa using h)
    simpa [btreeGo] using ih (minsert k v acc) hnd'

theorem rejectDup_ok {l : List (K × V)} (h : (l.map Prod.fst).Nodup) :
    rejectDupDecode l = .ok (btreeOfList l) :=
  rejectGo_ok l [] (by simpa using h)

theorem rejectGo_error :
    ∀ (l acc : List (K × V)),
      (acc.map Prod.fst).Nodup →
      ¬(acc.map Prod.fst ++ l.map Prod.fst).Nodup →
      rejectGo acc l = .error duplicateKeyError := by
  intro l
  induction l with
  | nil => intro acc hacc h; exact absurd (by simpa using hacc) h
  | cons p rest ih =>
    intro acc hacc h
    obtain ⟨k, v⟩ := p
    by_cases hk : k ∈ acc.map Prod.fst
    · have : (mfind k acc).isSome := by
        cases hfind : mfind k acc with
        | none => exact absurd (mfind_eq_none.mp hfind) (by simpa using hk)
        | some v => rfl
      rw [rejectGo, if_pos this]
    · have hnone : mfind k acc = none := mfind_eq_none.mpr hk
      rw [rejectGo, hnone]
      simp only [Option.isSome_none, Bool.false_eq_true, if_false]
      have hinskeys : List.Perm ((minsert k v acc).map Prod.fst)
          (k :: acc.map Prod.fst) := (perm_minsert hk).map Prod.fst
      refine ih (minsert k v acc) ?_ ?_
      · exact hinskeys.nodup_iff.mpr (List.nodup_cons.mpr ⟨hk, hacc⟩)
      · intro hnd
        apply h
        have h1 : List.Perm ((minsert k v acc).map Prod.fst ++ rest.map Prod.fst)
            ((k :: acc.map Prod.fst) ++ rest.map Prod.fst) :=
          hinskeys.append_right _
        have h2 : List.Perm ((k :: acc.map Prod.fst) ++ rest.map Prod.fst)
            (acc.map Prod.fst ++ (k :: rest.map Prod.fst)) := List.perm_middle.symm
        have := (h1.trans h2).nodup_iff.mp hnd
        simpa using this

theorem rejectDup_error {l : List (K × V)} (h : ¬(l.map Prod.fst).Nodup) :
    rejectDupDecode l = .error duplicateKeyError :=
  rejectGo_error l [] List.nodup_nil (by simpa using h)

end MapLemmas

/-! ## Concrete datetime evaluations -/

example : parse_datetime (str "2022-08-30T19:53:55Z") =
    .ok ⟨2022, 8, 30, 19, 53, 55, 0⟩ := by decide

example : parse_datetime (str "2022-08-30T14:53:55.775-05:00") =
    .ok ⟨2022, 8, 30, 19, 53, 55, 775000000⟩ := by decide

example : format_datetime ⟨2022, 8, 30, 19, 53, 55, 775000000⟩ =
    str "2022-08-30T19:53:55Z" := by decide


/-! ## Datetime codec lemmas -/

theorem digitChar_toNat {d : Nat} (h : d < 10) : (digitChar d).toNat = 48 + d := by
  interval_cases d <;> decide

theorem isDigitB_digitChar {d : Nat} (h : d < 10) :
    isDigitB (digitChar d) = true := by
  interval_cases d <;> decide

theorem digitVal_digitChar {d : Nat} (h : d < 10) :
    digitVal (digitChar d) = d := by
  interval_cases d <;> decide

theorem parse2_pad2 {n : Nat} (h : n < 100) (rest : Str) :
    parse2 (pad2 n ++ rest) = some (n, rest) := by
  have h1 : n / 10 < 10 := by omega
  have h2 : n % 10 < 10 := by omega
  have e : n / 10 * 10 + n % 10 = n := by omega
  rw [pad2, if_pos h]
  simp [parse2, isDigitB_digitChar h1, isDigitB_digitChar h2,
    digitVal_digitChar h1, digitVal_digitChar h2, e]

theorem parse4_pad4 {n : Nat} (h : n < 10000) (rest : Str) :
    parse4 (pad4 n ++ rest) = some (n, rest) := by
  have h1 : n / 1000 < 10 := by omega
  have h2 : n / 100 % 10 < 10 := by omega
  have h3 : n / 10 % 10 < 10 := by omega
  have h4 : n % 10 < 10 := by omega
  have e : n / 1000 * 1000 + n / 100 % 10 * 100 + n / 10 % 10 * 10 + n % 10 = n := by
    omega
  rw [pad4, if_pos h]
  simp [parse4, isDigitB_digitChar h1, isDigitB_digitChar h2,
    isDigitB_digitChar h3, isDigitB_digitChar h4, digitVal_digitChar h1,
    digitVal_digitChar h2, digitVal_digitChar h3, digitVal_digitChar h4, e]

theorem expectChar_cons {c : Char} {rest : Str} :
    expectChar c (c :: rest) = some rest := by
  simp [expectChar]

theorem parseFrac_not_dot {l : Str} (h : ∀ rest, l ≠ '.' :: rest) :
    parseFrac l = some (0, l) := by
  cases l with
  | nil => rfl
  | cons c rest =>
    have hc : ¬c = '.' := fun e => h rest (by rw [e])
    simp [parseFrac, hc]

theorem obind_some {A B : Type} (x : A) (f : A → Option B) :
    obind (some x) f = f x := rfl

theorem obind_none {A B : Type} (f : A → Option B) :
    obind (none : Option A) f = none := rfl

theorem parse_format_datetime {dt : DateTime} (h : dt.Valid) :
    parse_datetime (format_datetime dt) = .ok { dt with nano := 0 } := by
  obtain ⟨hy, hmo1, hmo2, hd1, hd2, hh, hmi, hs, _⟩ := h
  have hdim : DateTime.Valid.daysInMonth dt.year dt.month ≤ 31 := by
    unfold DateTime.Valid.daysInMonth; split_ifs <;> omega
  have hfz : parseFrac ['Z'] = some (0, ['Z']) := by decide
  have hoz : parseOffset ['Z'] = some (0 : Int) := by decide
  have hparse : parseRfc3339Utc (format_datetime dt) = some { dt with nano := 0 } := by
    rw [format_datetime]
    simp only [List.append_assoc, List.cons_append]
    rw [parseRfc3339Utc]
    rw [parse4_pad4 (show dt.year < 10000 by omega)]
    simp only [obind_some]
    rw [expectChar_cons]
    simp only [obind_some]
    rw [parse2_pad2 (show dt.month < 100 by omega)]
    simp only [obind_some]
    rw [expectChar_cons]
    simp only [obind_some]
    rw [parse2_pad2 (show dt.day < 100 by omega)]
    simp only [obind_some]
    rw [expectChar_cons]
    simp only [obind_some]
    rw [parse2_pad2 (show dt.hour < 100 by omega)]
    simp only [obind_some]
    rw [expectChar_cons]
    simp only [obind_some]
    rw [parse2_pad2 (show dt.minute < 100 by omega)]
    simp only [obind_some]
    rw [expectChar_cons]
    simp only [obind_some]
    rw [parse2_pad2 (show dt.second < 100 by omega)]
    simp only [obind_some]
    rw [hfz]
    simp only [obind_some]
    rw [hoz]
    simp only [obind_some]
    simp [hmo1, hmo2, hd1, hd2, hh, hmi, hs]
  rw [parse_datetime, hparse]

theorem ebind_ok {A B : Type} (x : A) (f : A → Except Error B) :
    ebind (.ok x) f = f x := rfl

theorem ebind_error {A B : Type} (e : Error) (f : A → Except Error B) :
    ebind (.error e) f = .error e := rfl

theorem parse2_pad2_nil {n : Nat} (h : n < 100) :
    parse2 (pad2 n) = some (n, []) := by
  have := parse2_pad2 h []
  simpa using this

theorem takeWhile_digits :
    ∀ (ds : List Nat), (∀ x ∈ ds, x < 10) →
      ∀ {tail : Str}, (∀ c rest, tail = c :: rest → isDigitB c = false) →
      (ds.map digitChar ++ tail).takeWhile isDigitB = ds.map digitChar ∧
      (ds.map digitChar ++ tail).dropWhile isDigitB = tail := by
  intro ds
  induction ds with
  | nil =>
    intro _ tail ht
    simp only [List.map_nil, List.nil_append]
    cases tail with
    | nil => exact ⟨rfl, rfl⟩
    | cons c rest =>
      rw [List.takeWhile_cons, List.dropWhile_cons, ht c rest rfl]
      simp
  | cons x ds ih =>
    intro hall tail ht
    have hx : isDigitB (digitChar x) = true :=
      isDigitB_digitChar (hall x (by simp))
    have ih' := ih (fun a ha => hall a (by simp [ha])) ht
    simp only [List.map_cons, List.cons_append, List.takeWhile_cons,
      List.dropWhile_cons, hx]
    simp [ih'.1, ih'.2]

theorem parseFrac_frac {ds : List Nat} (hall : ∀ x ∈ ds, x < 10)
    (hne : ds ≠ []) {tail : Str}
    (ht : ∀ c rest, tail = c :: rest → isDigitB c = false) :
    parseFrac ('.' :: ds.map digitChar ++ tail) =
      some (nanoOfDigits (ds.map digitChar), tail) := by
  obtain ⟨htake, hdrop⟩ := takeWhile_digits ds hall ht
  have hemp : (ds.map digitChar).isEmpty = false := by
    cases ds with
    | nil => exact absurd rfl hne
    | cons a l => rfl
  simp [parseFrac, htake, hdrop, hemp]

theorem parseOffset_render {neg : Bool} {oh om : Nat} (h1 : oh ≤ 23)
    (h2 : om ≤ 59) :
    parseOffset ((if neg then '-' else '+') :: (pad2 oh ++ ':' :: pad2 om)) =
      some (if neg then -((oh : Int) * 60 + om) else (oh : Int) * 60 + om) := by
  have hoh : oh < 100 := by omega
  have hom : om < 100 := by omega
  cases neg <;>
  · simp only [Bool.false_eq_true, if_false, if_true, List.cons_append]
    simp [parseOffset]
    rw [parse2_pad2 hoh]
    simp only [obind_some]
    rw [expectChar_cons]
    simp only [obind_some]
    rw [parse2_pad2_nil hom]
    simp only [obind_some]
    simp [h1, h2]

theorem parseRfc3339Utc_shape {y mo d h mi s nano : Nat}
    {restAfterSeconds tail : Str} {v : Int} (hy : y ≤ 9999) (hmo1 : 1 ≤ mo)
    (hmo2 : mo ≤ 12) (hd1 : 1 ≤ d)
    (hd2 : d ≤ DateTime.Valid.daysInMonth y mo) (hh : h ≤ 23) (hmi : mi ≤ 59)
    (hs : s ≤ 59) (hfr : parseFrac restAfterSeconds = some (nano, tail))
    (hv : parseOffset tail = some v) :
    (parseRfc3339Utc (pad4 y ++ '-' :: (pad2 mo ++ '-' :: (pad2 d ++
      'T' :: (pad2 h ++ ':' :: (pad2 mi ++ ':' :: (pad2 s ++
        restAfterSeconds))))))).isSome = true := by
  have hdim : DateTime.Valid.daysInMonth y mo ≤ 31 := by
    unfold DateTime.Valid.daysInMonth; split_ifs <;> omega
  rw [parseRfc3339Utc]
  rw [parse4_pad4 (show y < 10000 by omega)]
  simp only [obind_some]
  rw [expectChar_cons]
  simp only [obind_some]
  rw [parse2_pad2 (show mo < 100 by omega)]
  simp only [obind_some]
  rw [expectChar_cons]
  simp only [obind_some]
  rw [parse2_pad2 (show d < 100 by omega)]
  simp only [obind_some]
  rw [expectChar_cons]
  simp only [obind_some]
  rw [parse2_pad2 (show h < 100 by omega)]
  simp only [obind_some]
  rw [expectChar_cons]
  simp only [obind_some]
  rw [parse2_pad2 (show mi < 100 by omega)]
  simp only [obind_some]
  rw [expectChar_cons]
  simp only [obind_some]
  rw [parse2_pad2 (show s < 100 by omega)]
  simp only [obind_some]
  rw [hfr]
  simp only [obind_some]
  rw [hv]
  simp only [obind_some]
  rw [if_pos ⟨hmo1, hmo2, hd1, hd2, hh, hmi, hs⟩]
  by_cases hz : v = 0
  · rw [if_pos hz]; rfl
  · rw [if_neg hz]; rfl

theorem parseRfc3339_render {y mo d h mi s : Nat} (frac : List Nat)
    (off : Option (Bool × Nat × Nat)) (hy : y ≤ 9999) (hmo1 : 1 ≤ mo)
    (hmo2 : mo ≤ 12) (hd1 : 1 ≤ d)
    (hd2 : d ≤ DateTime.Valid.daysInMonth y mo) (hh : h ≤ 23) (hmi : mi ≤ 59)
    (hs : s ≤ 59) (hfrac : ∀ x ∈ frac, x < 10)
    (hoff : ∀ p, off = some p → p.2.1 ≤ 23 ∧ p.2.2 ≤ 59) :
    (parseRfc3339Utc (renderRfc3339 y mo d h mi s frac off)).isSome = true := by
  rw [renderRfc3339.eq_def]
  rcases off with _ | ⟨neg, oh, om⟩
  · have htailnd : ∀ c rest, (['Z'] : Str) = c :: rest → isDigitB c = false := by
      rintro c rest hc
      cases hc
      decide
    by_cases hemp : frac.isEmpty
    · simp only [hemp, if_true, List.append_assoc, List.cons_append,
        List.nil_append]
      have hfr0 : parseFrac (['Z'] : Str) = some (0, ['Z']) := by
        refine parseFrac_not_dot ?_
        rintro rest hrest
        cases hrest
      exact parseRfc3339Utc_shape hy hmo1 hmo2 hd1 hd2 hh hmi hs hfr0
        (show parseOffset ['Z'] = some 0 from by decide)
    · have hne : frac ≠ [] := by
        cases frac with
        | nil => exact absurd rfl hemp
        | cons a l => simp
      simp only [hemp, Bool.false_eq_true, if_false, List.append_assoc,
        List.cons_append]
      exact parseRfc3339Utc_shape hy hmo1 hmo2 hd1 hd2 hh hmi hs
        (parseFrac_frac hfrac hne htailnd)
        (show parseOffset ['Z'] = some 0 from by decide)
  · obtain ⟨ho1, ho2⟩ := hoff (neg, oh, om) rfl
    have htailnd : ∀ c rest,
        ((if neg then '-' else '+') :: (pad2 oh ++ ':' :: pad2 om) : Str) =
          c :: rest → isDigitB c = false := by
      rintro c rest hc
      cases neg <;> simp only [Bool.false_eq_true, if_false, if_true] at hc <;>
        (cases hc; decide)
    have hv := @parseOffset_render neg oh om ho1 ho2
    by_cases hemp : frac.isEmpty
    · simp only [hemp, if_true, List.append_assoc, List.cons_append,
        List.nil_append]
      have hfr0 : parseFrac
          ((if neg then '-' else '+') :: (pad2 oh ++ ':' :: pad2 om) : Str) =
          some (0, (if neg then '-' else '+') :: (pad2 oh ++ ':' :: pad2 om)) := by
        refine parseFrac_not_dot ?_
        rintro rest hrest
        cases neg <;> simp only [Bool.false_eq_true, if_false, if_true] at hrest <;>
          · have h12 := (List.cons.injEq _ _ _ _).mp hrest
            simp at h12
      exact parseRfc3339Utc_shape hy hmo1 hmo2 hd1 hd2 hh hmi hs hfr0 hv
    · have hne : frac ≠ [] := by
        cases frac with
        | nil => exact absurd rfl hemp
        | cons a l => simp
      simp only [hemp, Bool.false_eq_true, if_false, List.append_assoc,
        List.cons_append]
      exact parseRfc3339Utc_shape hy hmo1 hmo2 hd1 hd2 hh hmi hs
        (parseFrac_frac hfrac hne htailnd) hv

/-! ## Round-trip lemmas for the four role codecs -/

theorem datetime_nano_zero {dt : DateTime} (h : dt.nano = 0) :
    ({ dt with nano := 0 } : DateTime) = dt := by
  cases dt
  simp_all

theorem timestamp_roundtrip {m : metadata.TimestampMetadata} (hv : m.Valid)
    (hn : m.expires.nano = 0) :
    shims.TimestampMetadata.try_into (shims.TimestampMetadata.from_metadata m) =
      .ok m := by
  have hex : parse_datetime (format_datetime m.expires) = .ok m.expires := by
    rw [parse_format_datetime hv, datetime_nano_zero hn]
  simp only [shims.TimestampMetadata.from_metadata,
    shims.TimestampMetadata.try_into]
  rw [if_neg (show ¬(Role.timestamp ≠ Role.timestamp) from fun h => h rfl)]
  rw [if_neg (show ¬¬(valid_spec_version SPEC_VERSION = true) from by decide)]
  rw [hex]
  simp only [ebind_ok]
  rw [metadata.TimestampMetadata.new]

theorem root_roundtrip {m : metadata.RootMetadata} (hv : m.Valid)
    (hn : m.expires.nano = 0) :
    shims.RootMetadata.try_into (shims.RootMetadata.from_metadata m) =
      .ok m := by
  obtain ⟨hdt, hsorted, hmatch⟩ := hv
  have hex : parse_datetime (format_datetime m.expires) = .ok m.expires := by
    rw [parse_format_datetime hdt, datetime_nano_zero hn]
  simp only [shims.RootMetadata.from_metadata, shims.RootMetadata.try_into]
  rw [if_neg (show ¬(Role.root ≠ Role.root) from fun h => h rfl)]
  rw [if_neg (show ¬¬(valid_spec_version SPEC_VERSION = true) from by decide)]
  rw [hex]
  simp only [ebind_ok]
  rw [btree_sorted_self hsorted]
  rw [List.filter_eq_self.mpr (fun a ha => by simpa using hmatch a ha)]
  rw [metadata.RootMetadata.new]
  rw [btree_sorted_self hsorted]

theorem targets_roundtrip {m : metadata.TargetsMetadata} (hv : m.Valid)
    (hn : m.expires.nano = 0) :
    shims.TargetsMetadata.try_into (shims.TargetsMetadata.from_metadata m) =
      .ok m := by
  obtain ⟨hdt, hsorted⟩ := hv
  have hex : parse_datetime (format_datetime m.expires) = .ok m.expires := by
    rw [parse_format_datetime hdt, datetime_nano_zero hn]
  simp only [shims.TargetsMetadata.from_metadata, shims.TargetsMetadata.try_into]
  rw [if_neg (show ¬(Role.targets ≠ Role.targets) from fun h => h rfl)]
  rw [if_neg (show ¬¬(valid_spec_version SPEC_VERSION = true) from by decide)]
  rw [hex]
  simp only [ebind_ok]
  rw [metadata.TargetsMetadata.new]
  rw [btree_sorted_self hsorted, btree_sorted_self hsorted]

theorem endsWithJson_append (p : Str) :
    shims.endsWithJson (p ++ str ".json") = true := by
  unfold shims.endsWithJson
  have hlen : (p ++ str ".json").length = p.length + 5 := by simp [str]
  rw [hlen]
  have h5 : p.length + 5 - 5 = p.length := by omega
  rw [h5]
  have hdrop : (p ++ str ".json").drop p.length = str ".json" :=
    List.drop_left p (str ".json")
  rw [hdrop]
  simp

theorem stripJson_append (p : Str) : shims.stripJson (p ++ str ".json") = p := by
  unfold shims.stripJson
  have hlen : (p ++ str ".json").length = p.length + 5 := by simp [str]
  rw [hlen]
  have h5 : p.length + 5 - 5 = p.length := by omega
  rw [h5]
  exact List.take_left p (str ".json")

theorem emapM_stripJson {l : List (Str × metadata.MetadataDescription)}
    (h : ∀ p ∈ l, shims.endsWithJson p.1 = true) :
    emapM shims.stripJsonEntry l =
      .ok (l.map (fun p => (shims.stripJson p.1, p.2))) := by
  induction l with
  | nil => rfl
  | cons p rest ih =>
    simp only [emapM]
    rw [shims.stripJsonEntry, if_pos (h p (List.mem_cons_self p rest))]
    rw [metadata.MetadataPath.new]
    simp only [ebind_ok]
    rw [ih (fun q hq => h q (List.mem_cons_of_mem _ hq))]
    simp only [ebind_ok, List.map_cons]

theorem snapshot_roundtrip {m : metadata.SnapshotMetadata} (hv : m.Valid)
    (hn : m.expires.nano = 0) :
    shims.SnapshotMetadata.try_into (shims.SnapshotMetadata.from_metadata m) =
      .ok m := by
  obtain ⟨hdt, hsorted⟩ := hv
  have hex : parse_datetime (format_datetime m.expires) = .ok m.expires := by
    rw [parse_format_datetime hdt, datetime_nano_zero hn]
  -- the suffixed copy of the map and its key facts
  have hnd : (m.meta.map Prod.fst).Nodup := sortedMap_nodup_keys hsorted
  have hsufnd :
      ((m.meta.map (fun p => (p.1 ++ str ".json", p.2))).map Prod.fst).Nodup := by
    have : (m.meta.map (fun p => (p.1 ++ str ".json", p.2))).map Prod.fst =
        (m.meta.map Prod.fst).map (fun q => q ++ str ".json") := by
      simp [List.map_map]
    rw [this]
    refine hnd.map ?_
    intro a b hab
    exact List.append_cancel_right hab
  have hperm :
      List.Perm (btreeOfList (m.meta.map (fun p => (p.1 ++ str ".json", p.2))))
        (m.meta.map (fun p => (p.1 ++ str ".json", p.2))) :=
    perm_btreeOfList hsufnd
  have hall : ∀ p ∈ btreeOfList (m.meta.map (fun p => (p.1 ++ str ".json", p.2))),
      shims.endsWithJson p.1 = true := by
    intro p hp
    have := hperm.mem_iff.mp hp
    obtain ⟨q, _, hq⟩ := List.mem_map.mp this
    rw [← hq]
    exact endsWithJson_append q.1
  simp only [shims.SnapshotMetadata.from_metadata,
    shims.SnapshotMetadata.try_into]
  rw [if_neg (show ¬(Role.snapshot ≠ Role.snapshot) from fun h => h rfl)]
  rw [if_neg (show ¬¬(valid_spec_version SPEC_VERSION = true) from by decide)]
  rw [hex]
  simp only [ebind_ok]
  rw [emapM_stripJson hall]
  simp only [ebind_ok]
  rw [metadata.SnapshotMetadata.new]
  -- the final collect sorts the stripped entries back into canonical order
  have hstrip :
      (m.meta.map (fun p => (p.1 ++ str ".json", p.2))).map
        (fun p => (shims.stripJson p.1, p.2)) = m.meta := by
    rw [List.map_map]
    have : ((fun p : Str × metadata.MetadataDescription =>
        (shims.stripJson p.1, p.2)) ∘
        (fun p : Str × metadata.MetadataDescription =>
          (p.1 ++ str ".json", p.2))) =
        fun p => (shims.stripJson (p.1 ++ str ".json"), p.2) := rfl
    rw [this]
    have : (fun p : Str × metadata.MetadataDescription =>
        (shims.stripJson (p.1 ++ str ".json"), p.2)) = fun p => (p.1, p.2) := by
      funext p
      rw [stripJson_append]
    rw [this]
    simp
  have hperm2 :
      List.Perm ((btreeOfList (m.meta.map (fun p => (p.1 ++ str ".json", p.2)))).map
        (fun p => (shims.stripJson p.1, p.2))) m.meta := by
    have := hperm.map (fun p => (shims.stripJson p.1, p.2))
    rw [hstrip] at this
    exact this
  rw [btree_canonical hperm2 hnd hsorted]

/-! ## Helper lemmas for the claim theorems -/

theorem firstDupGo_none :
    ∀ (l seen : List KeyId), (seen ++ l).Nodup →
      shims.firstDupGo seen l = none := by
  intro l
  induction l with
  | nil => intro seen _; rfl
  | cons k rest ih =>
    intro seen h
    have hmid : List.Perm (seen ++ k :: rest) (k :: (seen ++ rest)) :=
      List.perm_middle
    have h' := hmid.nodup_iff.mp h
    rw [List.nodup_cons, List.mem_append] at h'
    push_neg at h'
    obtain ⟨⟨hk1, hk2⟩, hnd⟩ := h'
    rw [shims.firstDupGo, if_neg hk1]
    have : ((k :: seen) ++ rest).Nodup := by
      simp only [List.cons_append, List.nodup_cons, List.mem_append]
      push_neg
      exact ⟨⟨hk1, hk2⟩, hnd⟩
    exact ih (k :: seen) this

theorem firstDup_none {l : List KeyId} (h : l.Nodup) :
    shims.firstDup l = none :=
  firstDupGo_none l [] (by simpa using h)

theorem firstDupGo_inner :
    ∀ (l2 seen : List KeyId) (k : KeyId) (l3 : List KeyId), k ∈ seen →
      (∀ x ∈ l2, x ∉ seen) → l2.Nodup → k ∉ l2 →
      shims.firstDupGo seen (l2 ++ k :: l3) = some k := by
  intro l2
  induction l2 with
  | nil =>
    intro seen k l3 hk _ _ _
    rw [List.nil_append, shims.firstDupGo, if_pos hk]
  | cons x rest ih =>
    intro seen k l3 hk hfresh hnd hkmem
    rw [List.cons_append, shims.firstDupGo,
      if_neg (hfresh x (List.mem_cons_self x rest))]
    refine ih (x :: seen) k l3 (List.mem_cons_of_mem _ hk) ?_ ?_ ?_
    · intro a ha
      rw [List.mem_cons]
      push_neg
      rw [List.nodup_cons] at hnd
      refine ⟨fun e => hnd.1 (e ▸ ha), hfresh a (List.mem_cons_of_mem _ ha)⟩
    · exact (List.nodup_cons.mp hnd).2
    · intro hm
      exact hkmem (List.mem_cons_of_mem _ hm)

theorem firstDup_second_occurrence {l1 l2 l3 : List KeyId} {k : KeyId}
    (h : (l1 ++ k :: l2).Nodup) :
    shims.firstDup (l1 ++ k :: l2 ++ k :: l3) = some k := by
  rw [shims.firstDup]
  suffices hgen : ∀ (l1 seen : List KeyId), (seen ++ l1 ++ k :: l2).Nodup →
      shims.firstDupGo seen (l1 ++ k :: l2 ++ k :: l3) = some k by
    exact hgen l1 [] (by simpa using h)
  intro l1
  induction l1 with
  | nil =>
    intro seen hnd
    simp only [List.append_nil, List.nil_append] at hnd ⊢
    have hmid : List.Perm (seen ++ k :: l2) (k :: (seen ++ l2)) :=
      List.perm_middle
    have h' := hmid.nodup_iff.mp hnd
    rw [List.nodup_cons, List.mem_append] at h'
    push_neg at h'
    obtain ⟨⟨hks, hkl2⟩, hnd'⟩ := h'
    rw [List.cons_append, shims.firstDupGo, if_neg hks]
    refine firstDupGo_inner l2 (k :: seen) k l3 (List.mem_cons_self _ _) ?_ ?_
      hkl2
    · intro a ha
      rw [List.mem_cons]
      push_neg
      constructor
      · intro e
        exact hkl2 (e ▸ ha)
      · intro hmem
        exact (List.disjoint_of_nodup_append hnd') hmem ha
    · exact (List.nodup_append.mp hnd').2.1
  | cons x rest ih =>
    intro seen hnd
    have hperm : List.Perm ((seen ++ x :: rest) ++ k :: l2)
        ((x :: (seen ++ rest)) ++ k :: l2) :=
      List.Perm.append_right _ List.perm_middle
    have hnd2 : ((x :: (seen ++ rest)) ++ k :: l2).Nodup :=
      hperm.nodup_iff.mp hnd
    have hnd3 : ((x :: seen) ++ rest ++ k :: l2).Nodup := by
      simpa using hnd2
    have hx : x ∉ seen := by
      have := List.Nodup.of_append_left hnd3
      rw [List.cons_append, List.nodup_cons, List.mem_append] at this
      push_neg at this
      exact this.1.1
    rw [List.cons_append, List.cons_append, shims.firstDupGo, if_neg hx]
    have := ih (x :: seen) hnd3
    simpa using this

theorem dedup_length_eq_iff {l : List Str} :
    l.dedup.length = l.length ↔ l.Nodup := by
  constructor
  · intro h
    have hsub : l.dedup.Sublist l := List.dedup_sublist l
    have : l.dedup = l := hsub.eq_of_length h
    rw [← this]
    exact List.nodup_dedup l
  · intro h
    rw [List.dedup_eq_self.mpr h]

theorem emapM_append_error {A B : Type} {f : A → Except Error B}
    {l1 : List A} {p : A} {l2 : List A} {e : Error}
    (h1 : ∀ q ∈ l1, ∃ b, f q = .ok b) (h2 : f p = .error e) :
    emapM f (l1 ++ p :: l2) = .error e := by
  induction l1 with
  | nil =>
    rw [List.nil_append]
    simp only [emapM, h2, ebind_error]
  | cons q rest ih =>
    obtain ⟨b, hb⟩ := h1 q (List.mem_cons_self q rest)
    rw [List.cons_append]
    simp only [emapM, hb, ebind_ok]
    rw [ih (fun r hr => h1 r (List.mem_cons_of_mem _ hr))]
    simp only [ebind_error]

theorem rejectDup_at_second {K V : Type} [LinearOrder K]
    {l1 : List (K × V)} {k : K} {v : V} {l2 : List (K × V)}
    (h : k ∈ l1.map Prod.fst) :
    rejectDupDecode (l1 ++ (k, v) :: l2) = .error duplicateKeyError := by
  refine rejectDup_error ?_
  intro hnd
  rw [List.map_append, List.map_cons] at hnd
  have hdisj := List.disjoint_of_nodup_append hnd
  exact hdisj h (List.mem_cons_self _ _)

theorem sort_perm_eq {l l' : List Str} (h : List.Perm l l') :
    List.insertionSort (· ≤ ·) l = List.insertionSort (· ≤ ·) l' :=
  List.eq_of_perm_of_sorted
    (((List.perm_insertionSort _ l).trans h).trans
      (List.perm_insertionSort _ l').symm)
    (List.sorted_insertionSort _ l) (List.sorted_insertionSort _ l')

theorem btree_perm_eq {K V : Type} [LinearOrder K] {l l' : List (K × V)}
    (h : List.Perm l l') (hnd : (l'.map Prod.fst).Nodup) :
    btreeOfList l = btreeOfList l' := by
  have h1 : List.Perm l (btreeOfList l') :=
    h.trans (perm_btreeOfList hnd).symm
  refine btree_canonical h1 ?_ (sorted_btreeOfList l')
  exact sortedMap_nodup_keys (sorted_btreeOfList l')

theorem sortedMap_filter {K V : Type} [LinearOrder K] {l : List (K × V)}
    (h : SortedMap l) (p : K × V → Bool) : SortedMap (l.filter p) := by
  rw [SortedMap, List.Sorted] at h ⊢
  exact h.filter p

/-! ## Claim theorems -/

/-- C4: the spec-version validator returns true for exactly `"1.0"` and
`"1.0.0"` and false for every other string (including `"1.0.1"`, `"2.0"`
and the empty string), and every top-level decode of a document of the
expected role that declares any other spec_version fails with an
unknown-spec-version error. -/
theorem C4_spec_version_gate :
    (∀ s : Str, valid_spec_version s = true ↔
      (s = str "1.0" ∨ s = str "1.0.0")) ∧
    valid_spec_version (str "1.0") = true ∧
    valid_spec_version (str "1.0.0") = true ∧
    valid_spec_version (str "1.0.1") = false ∧
    valid_spec_version (str "2.0") = false ∧
    valid_spec_version (str "") = false ∧
    (∀ w : shims.RootMetadata, w.typ = Role.root →
      valid_spec_version w.spec_version = false →
      shims.RootMetadata.try_into w =
        .error (.encoding (str "Unknown spec version " ++ w.spec_version))) ∧
    (∀ w : shims.TimestampMetadata, w.typ = Role.timestamp →
      valid_spec_version w.spec_version = false →
      shims.TimestampMetadata.try_into w =
        .error (.encoding (str "Unknown spec version " ++ w.spec_version))) ∧
    (∀ w : shims.SnapshotMetadata, w.typ = Role.snapshot →
      valid_spec_version w.spec_version = false →
      shims.SnapshotMetadata.try_into w =
        .error (.encoding (str "Unknown spec version " ++ w.spec_version))) ∧
    (∀ w : shims.TargetsMetadata, w.typ = Role.targets →
      valid_spec_version w.spec_version = false →
      shims.TargetsMetadata.try_into w =
        .error (.encoding (str "Unknown spec version " ++ w.spec_version))) := by
  refine ⟨?_, by decide, by decide, by decide, by decide, by decide,
    ?_, ?_, ?_, ?_⟩
  · intro s
    simp [valid_spec_version]
  · intro w h1 h2
    rw [shims.RootMetadata.try_into, if_neg (fun hne => hne h1),
      if_pos (by simp [h2])]
  · intro w h1 h2
    rw [shims.TimestampMetadata.try_into, if_neg (fun hne => hne h1),
      if_pos (by simp [h2])]
  · intro w h1 h2
    rw [shims.SnapshotMetadata.try_into, if_neg (fun hne => hne h1),
      if_pos (by simp [h2])]
  · intro w h1 h2
    rw [shims.TargetsMetadata.try_into, if_neg (fun hne => hne h1),
      if_pos (by simp [h2])]

/-- C4 witness: the four decoders each reject a concrete document that
declares spec_version `"2.0"`. -/
theorem C4_spec_version_gate_witness :
    shims.RootMetadata.try_into
      ⟨Role.root, str "2.0", 1, false, str "2022-08-30T19:53:55Z", [],
        ⟨1, []⟩, ⟨1, []⟩, ⟨1, []⟩, ⟨1, []⟩⟩ =
      .error (.encoding (str "Unknown spec version " ++ str "2.0")) ∧
    shims.TimestampMetadata.try_into
      ⟨Role.timestamp, str "2.0", 1, str "2022-08-30T19:53:55Z",
        ⟨1, none, []⟩⟩ =
      .error (.encoding (str "Unknown spec version " ++ str "2.0")) ∧
    shims.SnapshotMetadata.try_into
      ⟨Role.snapshot, str "2.0", 1, str "2022-08-30T19:53:55Z", []⟩ =
      .error (.encoding (str "Unknown spec version " ++ str "2.0")) ∧
    shims.TargetsMetadata.try_into
      ⟨Role.targets, str "2.0", 1, str "2022-08-30T19:53:55Z", [],
        ⟨[], []⟩⟩ =
      .error (.encoding (str "Unknown spec version " ++ str "2.0")) := by
  obtain ⟨_, _, _, _, _, _, hroot, hts, hsnap, htgt⟩ := C4_spec_version_gate
  exact ⟨hroot _ rfl (by decide), hts _ rfl (by decide),
    hsnap _ rfl (by decide), htgt _ rfl (by decide)⟩

/-- C5: the datetime codec parses RFC3339 timestamps (with optional
fractional seconds of any precision and either a `Z` suffix or a numeric
UTC offset), normalizing to UTC, and its formatter always emits the
canonical whole-second UTC form; in particular the two inputs named by
the spec parse to the same instant and re-format to
`"2022-08-30T19:53:55Z"`. -/
theorem C5_datetime_codec :
    parse_datetime (str "2022-08-30T19:53:55.775Z") =
      .ok ⟨2022, 8, 30, 19, 53, 55, 775000000⟩ ∧
    parse_datetime (str "2022-08-30T14:53:55.775-05:00") =
      .ok ⟨2022, 8, 30, 19, 53, 55, 775000000⟩ ∧
    format_datetime ⟨2022, 8, 30, 19, 53, 55, 775000000⟩ =
      str "2022-08-30T19:53:55Z" ∧
    (∀ (y mo d h mi s : Nat) (frac : List Nat)
      (off : Option (Bool × Nat × Nat)), y ≤ 9999 → 1 ≤ mo → mo ≤ 12 →
      1 ≤ d → d ≤ DateTime.Valid.daysInMonth y mo → h ≤ 23 → mi ≤ 59 →
      s ≤ 59 → (∀ x ∈ frac, x < 10) →
      (∀ p, off = some p → p.2.1 ≤ 23 ∧ p.2.2 ≤ 59) →
      (parseRfc3339Utc (renderRfc3339 y mo d h mi s frac off)).isSome = true) ∧
    (∀ dt : DateTime, dt.Valid →
      parse_datetime (format_datetime dt) = .ok { dt with nano := 0 }) := by
  refine ⟨by decide, by decide, by decide, ?_, ?_⟩
  · intro y mo d h mi s frac off hy h1 h2 h3 h4 h5 h6 h7 h8 h9
    exact parseRfc3339_render frac off hy h1 h2 h3 h4 h5 h6 h7 h8 h9
  · intro dt h
    exact parse_format_datetime h

/-- C5 witness: the universal parts applied at a concrete fractional
offset timestamp and at a concrete valid instant. -/
theorem C5_datetime_codec_witness :
    (parseRfc3339Utc (renderRfc3339 2022 8 30 14 53 55 [7, 7, 5]
      (some (true, 5, 0)))).isSome = true ∧
    parse_datetime (format_datetime ⟨2022, 8, 30, 19, 53, 55, 775000000⟩) =
      .ok ⟨2022, 8, 30, 19, 53, 55, 0⟩ := by
  obtain ⟨_, _, _, hrender, hfmt⟩ := C5_datetime_codec
  refine ⟨hrender 2022 8 30 14 53 55 [7, 7, 5] (some (true, 5, 0))
    (by decide) (by decide) (by decide) (by decide) (by decide) (by decide)
    (by decide) (by decide) (by decide) (by decide), ?_⟩
  exact hfmt ⟨2022, 8, 30, 19, 53, 55, 775000000⟩ (by decide)

/-- C10: encode always stamps `spec_version = "1.0"` (never `"1.0.0"`)
and the codec's fixed role tag, regardless of input; a wire document
declaring `"1.0.0"` decodes successfully but re-encodes as `"1.0"`. -/
theorem C10_encode_stamps :
    (∀ m : metadata.RootMetadata,
      (shims.RootMetadata.from_metadata m).spec_version = str "1.0" ∧
      (shims.RootMetadata.from_metadata m).typ = Role.root) ∧
    (∀ m : metadata.TimestampMetadata,
      (shims.TimestampMetadata.from_metadata m).spec_version = str "1.0" ∧
      (shims.TimestampMetadata.from_metadata m).typ = Role.timestamp) ∧
    (∀ m : metadata.SnapshotMetadata,
      (shims.SnapshotMetadata.from_metadata m).spec_version = str "1.0" ∧
      (shims.SnapshotMetadata.from_metadata m).typ = Role.snapshot) ∧
    (∀ m : metadata.TargetsMetadata,
      (shims.TargetsMetadata.from_metadata m).spec_version = str "1.0" ∧
      (shims.TargetsMetadata.from_metadata m).typ = Role.targets) ∧
    shims.TimestampMetadata.try_into
      ⟨Role.timestamp, str "1.0.0", 1, str "2022-08-30T19:53:55Z",
        ⟨1, none, []⟩⟩ =
      .ok ⟨1, ⟨2022, 8, 30, 19, 53, 55, 0⟩, ⟨1, none, []⟩⟩ ∧
    (shims.TimestampMetadata.from_metadata
      ⟨1, ⟨2022, 8, 30, 19, 53, 55, 0⟩, ⟨1, none, []⟩⟩).spec_version =
      str "1.0" :=
  ⟨fun _ => ⟨rfl, rfl⟩, fun _ => ⟨rfl, rfl⟩, fun _ => ⟨rfl, rfl⟩,
    fun _ => ⟨rfl, rfl⟩, by decide, rfl⟩

/-- C3: the three maps decoded via the duplicate-rejecting routine (root
`keys`, snapshot `meta`, delegations `keys`) fail with a duplicate-key
error the moment a key that appeared earlier is seen again — regardless of
what follows — and succeed on all-distinct keys, producing exactly the
given entries. -/
theorem C3_reject_duplicate_maps :
    (∀ (l1 : List (KeyId × PublicKey)) (k : KeyId) (v : PublicKey) l2,
      k ∈ l1.map Prod.fst →
      shims.RootMetadata.decode_keys (l1 ++ (k, v) :: l2) =
        .error duplicateKeyError) ∧
    (∀ l : List (KeyId × PublicKey), (l.map Prod.fst).Nodup →
      shims.RootMetadata.decode_keys l = .ok (btreeOfList l) ∧
      List.Perm (btreeOfList l) l) ∧
    (∀ (l1 : List (Str × metadata.MetadataDescription)) (k : Str) v l2,
      k ∈ l1.map Prod.fst →
      shims.SnapshotMetadata.decode_meta (l1 ++ (k, v) :: l2) =
        .error duplicateKeyError) ∧
    (∀ l : List (Str × metadata.MetadataDescription), (l.map Prod.fst).Nodup →
      shims.SnapshotMetadata.decode_meta l = .ok (btreeOfList l) ∧
      List.Perm (btreeOfList l) l) ∧
    (∀ (l1 : List (KeyId × PublicKey)) (k : KeyId) (v : PublicKey) l2,
      k ∈ l1.map Prod.fst →
      shims.Delegations.decode_keys (l1 ++ (k, v) :: l2) =
        .error duplicateKeyError) ∧
    (∀ l : List (KeyId × PublicKey), (l.map Prod.fst).Nodup →
      shims.Delegations.decode_keys l = .ok (btreeOfList l) ∧
      List.Perm (btreeOfList l) l) :=
  ⟨fun _ _ _ _ h => rejectDup_at_second h,
    fun _ h => ⟨rejectDup_ok h, perm_btreeOfList h⟩,
    fun _ _ _ _ h => rejectDup_at_second h,
    fun _ h => ⟨rejectDup_ok h, perm_btreeOfList h⟩,
    fun _ _ _ _ h => rejectDup_at_second h,
    fun _ h => ⟨rejectDup_ok h, perm_btreeOfList h⟩⟩

/-- C3 witness: a concrete root `keys` map with the key id `"a"` repeated
fails, and one with distinct ids decodes to exactly those entries. -/
theorem C3_reject_duplicate_maps_witness :
    shims.RootMetadata.decode_keys
      [(str "a", ⟨str "a", str "t", str "s", str "p"⟩),
       (str "a", ⟨str "a", str "t", str "s", str "q"⟩)] =
      .error duplicateKeyError ∧
    shims.RootMetadata.decode_keys
      [(str "b", ⟨str "b", str "t", str "s", str "p"⟩),
       (str "a", ⟨str "a", str "t", str "s", str "q"⟩)] =
      .ok [(str "a", ⟨str "a", str "t", str "s", str "q"⟩),
        (str "b", ⟨str "b", str "t", str "s", str "p"⟩)] ∧
    shims.SnapshotMetadata.decode_meta
      [(str "a.json", ⟨1, none, []⟩), (str "a.json", ⟨2, none, []⟩)] =
      .error duplicateKeyError ∧
    shims.Delegations.decode_keys
      [(str "a", ⟨str "a", str "t", str "s", str "p"⟩),
       (str "a", ⟨str "a", str "t", str "s", str "q"⟩)] =
      .error duplicateKeyError := by
  obtain ⟨hroot, hrootok, hsnap, _, hdel, _⟩ := C3_reject_duplicate_maps
  refine ⟨?_, ?_, ?_, ?_⟩
  · exact hroot [(str "a", ⟨str "a", str "t", str "s", str "p"⟩)]
      (str "a") ⟨str "a", str "t", str "s", str "q"⟩ [] (by decide)
  · have := (hrootok
      [(str "b", ⟨str "b", str "t", str "s", str "p"⟩),
       (str "a", ⟨str "a", str "t", str "s", str "q"⟩)] (by decide)).1
    rw [this]
    decide
  · exact hsnap [(str "a.json", ⟨1, none, []⟩)] (str "a.json")
      ⟨2, none, []⟩ [] (by decide)
  · exact hdel [(str "a", ⟨str "a", str "t", str "s", str "p"⟩)]
      (str "a") ⟨str "a", str "t", str "s", str "q"⟩ [] (by decide)

/-- C2 counterexample: the `targets` map of a targets document and the
`hashes`/`custom` maps of a target description are NOT decoded via the
duplicate-rejecting routine — a wire map repeating a key decodes
successfully, resolved last-write-wins, contradicting the claim that
every map-typed field fails on a repeated key. -/
theorem C2_counterexample :
    shims.TargetsMetadata.decode_targets
      [(str "a", ⟨1, [], []⟩), (str "a", ⟨2, [], []⟩)] =
      .ok [(str "a", ⟨2, [], []⟩)] ∧
    shims.TargetDescription.decode_hashes
      [(str "sha256", str "x"), (str "sha256", str "y")] =
      .ok [(str "sha256", str "y")] ∧
    shims.TargetDescription.decode_custom
      [(str "c", str "1"), (str "c", str "2")] =
      .ok [(str "c", str "2")] ∧
    shims.MetadataDescription.decode_hashes
      [(str "sha256", str "x"), (str "sha256", str "y")] =
      .ok [(str "sha256", str "y")] ∧
    (⟨1, [], []⟩ : metadata.TargetDescription) ≠ ⟨2, [], []⟩ :=
  ⟨by decide, by decide, by decide, by decide, by decide⟩

/-- C2 (amended): only the three map fields carrying the
`deserialize_reject_duplicates` attribute (root `keys`, snapshot `meta`,
delegations `keys`) fail on a repeated key; the `targets`, `hashes` and
`custom` maps use serde's default map decoding, which never fails on a
duplicate and keeps the last value written. -/
theorem C2_amended_duplicate_handling :
    (∀ l : List (KeyId × PublicKey), ¬(l.map Prod.fst).Nodup →
      shims.RootMetadata.decode_keys l = .error duplicateKeyError) ∧
    (∀ l : List (Str × metadata.MetadataDescription),
      ¬(l.map Prod.fst).Nodup →
      shims.SnapshotMetadata.decode_meta l = .error duplicateKeyError) ∧
    (∀ l : List (KeyId × PublicKey), ¬(l.map Prod.fst).Nodup →
      shims.Delegations.decode_keys l = .error duplicateKeyError) ∧
    (∀ l : List (Str × metadata.TargetDescription),
      shims.TargetsMetadata.decode_targets l = .ok (btreeOfList l) ∧
      ∀ k, mfind k (btreeOfList l) = mfind k l.reverse) ∧
    (∀ l : List (Str × Str),
      shims.TargetDescription.decode_hashes l = .ok (btreeOfList l) ∧
      shims.TargetDescription.decode_custom l = .ok (btreeOfList l) ∧
      shims.MetadataDescription.decode_hashes l = .ok (btreeOfList l) ∧
      ∀ k, mfind k (btreeOfList l) = mfind k l.reverse) :=
  ⟨fun _ h => rejectDup_error h,
    fun _ h => rejectDup_error h,
    fun _ h => rejectDup_error h,
    fun _ => ⟨rfl, fun _ => mfind_btreeOfList⟩,
    fun _ => ⟨rfl, rfl, rfl, fun _ => mfind_btreeOfList⟩⟩

/-- C2 witness: the duplicate-rejecting fields at a concrete repeated
key, and last-write-wins lookup on a concrete duplicated targets map. -/
theorem C2_amended_duplicate_handling_witness :
    shims.RootMetadata.decode_keys
      [(str "a", ⟨str "a", str "t", str "s", str "p"⟩),
       (str "a", ⟨str "a", str "t", str "s", str "q"⟩)] =
      .error duplicateKeyError ∧
    shims.SnapshotMetadata.decode_meta
      [(str "m.json", ⟨1, none, []⟩), (str "m.json", ⟨2, none, []⟩)] =
      .error duplicateKeyError ∧
    shims.Delegations.decode_keys
      [(str "a", ⟨str "a", str "t", str "s", str "p"⟩),
       (str "a", ⟨str "a", str "t", str "s", str "q"⟩)] =
      .error duplicateKeyError ∧
    mfind (str "a")
      (btreeOfList [((str "a" : Str), (⟨1, [], []⟩ : metadata.TargetDescription)),
        (str "a", ⟨2, [], []⟩)]) = some ⟨2, [], []⟩ := by
  obtain ⟨hroot, hsnap, hdel, htgt, _⟩ := C2_amended_duplicate_handling
  refine ⟨hroot _ (by decide), hsnap _ (by decide), hdel _ (by decide), ?_⟩
  rw [(htgt [((str "a" : Str), (⟨1, [], []⟩ : metadata.TargetDescription)),
    (str "a", ⟨2, [], []⟩)]).2 (str "a")]
  decide

/-- C6: a role-definition `keyids` list with a repeated identifier fails
with an error naming the role and the offending identifier, a delegation
whose `keyids` or `paths` list repeats an element fails with the matching
role-agnostic non-unique error, and duplicate-free lists decode
successfully into the deduplicated sets. -/
theorem C6_duplicate_ids_in_lists :
    (∀ (role : Str) (t : Nat) (l1 l2 l3 : List KeyId) (k : KeyId),
      (l1 ++ k :: l2).Nodup →
      shims.RoleDefinition.try_into role ⟨t, l1 ++ k :: l2 ++ k :: l3⟩ =
        .error (.metadataRoleHasDuplicateKeyId role k)) ∧
    (∀ (role : Str) (t : Nat) (l : List KeyId), l.Nodup →
      shims.RoleDefinition.try_into role ⟨t, l⟩ =
        .ok ⟨t, List.insertionSort (· ≤ ·) l⟩) ∧
    (∀ d : shims.Delegation, ¬d.key_ids.Nodup →
      shims.Delegation.try_into d =
        .error (.encoding (str "Non-unique delegation key IDs."))) ∧
    (∀ d : shims.Delegation, d.key_ids.Nodup → ¬d.paths.Nodup →
      shims.Delegation.try_into d =
        .error (.encoding (str "Non-unique delegation paths."))) ∧
    (∀ d : shims.Delegation, d.key_ids.Nodup → d.paths.Nodup →
      shims.Delegation.try_into d =
        .ok ⟨d.name, d.terminating, d.threshold,
          List.insertionSort (· ≤ ·) d.key_ids,
          List.insertionSort (· ≤ ·) d.paths⟩) := by
  refine ⟨?_, ?_, ?_, ?_, ?_⟩
  · intro role t l1 l2 l3 k h
    simp only [shims.RoleDefinition.try_into, firstDup_second_occurrence h]
  · intro role t l h
    simp only [shims.RoleDefinition.try_into, firstDup_none h]
    rw [metadata.RoleDefinition.new, List.dedup_eq_self.mpr h]
  · intro d h
    rw [shims.Delegation.try_into,
      if_pos (fun e => h (dedup_length_eq_iff.mp e))]
  · intro d hk hp
    rw [shims.Delegation.try_into,
      if_neg (by rw [List.dedup_eq_self.mpr hk]; exact fun e => e rfl),
      if_pos (fun e => hp (dedup_length_eq_iff.mp e))]
  · intro d hk hp
    rw [shims.Delegation.try_into,
      if_neg (by rw [List.dedup_eq_self.mpr hk]; exact fun e => e rfl),
      if_neg (by rw [List.dedup_eq_self.mpr hp]; exact fun e => e rfl)]
    rw [metadata.Delegation.new, List.dedup_eq_self.mpr hk,
      List.dedup_eq_self.mpr hp]

/-- C6 witness: `keyids ["A","B","A"]` fails naming the role and `"A"`,
`["A","B"]` succeeds; a delegation with a duplicated path fails with the
non-unique-paths error, and with distinct lists it succeeds. -/
theorem C6_duplicate_ids_in_lists_witness :
    shims.RoleDefinition.try_into (str "root")
      ⟨1, [str "A", str "B", str "A"]⟩ =
      .error (.metadataRoleHasDuplicateKeyId (str "root") (str "A")) ∧
    shims.RoleDefinition.try_into (str "root") ⟨1, [str "A", str "B"]⟩ =
      .ok ⟨1, [str "A", str "B"]⟩ ∧
    shims.Delegation.try_into
      ⟨str "d", false, 1, [str "A"], [str "x/*", str "x/*"]⟩ =
      .error (.encoding (str "Non-unique delegation paths.")) ∧
    shims.Delegation.try_into
      ⟨str "d", false, 1, [str "A", str "A"], [str "x/*"]⟩ =
      .error (.encoding (str "Non-unique delegation key IDs.")) ∧
    shims.Delegation.try_into
      ⟨str "d", false, 1, [str "B", str "A"], [str "y/*", str "x/*"]⟩ =
      .ok ⟨str "d", false, 1, [str "A", str "B"], [str "x/*", str "y/*"]⟩ := by
  obtain ⟨hdup, hok, hkeys, hpaths, hdok⟩ := C6_duplicate_ids_in_lists
  refine ⟨?_, ?_, ?_, ?_, ?_⟩
  · have := hdup (str "root") 1 [] [str "B"] [] (str "A") (by decide)
    simpa using this
  · have := hok (str "root") 1 [str "A", str "B"] (by decide)
    rw [this]
    decide
  · exact hpaths _ (by decide) (by decide)
  · exact hkeys _ (by decide)
  · have := hdok ⟨str "d", false, 1, [str "B", str "A"],
      [str "y/*", str "x/*"]⟩ (by decide) (by decide)
    rw [this]
    decide

/-- C7: decoding root metadata silently drops every key-pool entry whose
stored identifier differs from the identifier recomputed from the key
material, retaining exactly the matching entries — no error is raised. -/
theorem C7_legacy_key_filter :
    ∀ w : shims.RootMetadata, w.typ = Role.root →
      valid_spec_version w.spec_version = true → SortedMap w.keys →
      ∀ e, parse_datetime w.expires = .ok e →
      shims.RootMetadata.try_into w =
        .ok ⟨w.version, e, w.consistent_snapshot,
          w.keys.filter (fun p => decide (p.1 = p.2.keyid)),
          w.roles.root, w.roles.snapshot, w.roles.targets,
          w.roles.timestamp⟩ := by
  intro w htyp hspec hsorted e hparse
  rw [shims.RootMetadata.try_into, if_neg (fun hne => hne htyp),
    if_neg (fun hn => hn hspec), hparse]
  simp only [ebind_ok]
  rw [metadata.RootMetadata.new,
    btree_sorted_self (sortedMap_filter hsorted _)]

/-- C7 witness: a concrete root document holding one key whose stored id
matches the recomputed id and one whose id does not decodes successfully,
retaining only the matching entry. -/
theorem C7_legacy_key_filter_witness :
    shims.RootMetadata.try_into
      ⟨Role.root, str "1.0", 1, false, str "2022-08-30T19:53:55Z",
        [(str "a", ⟨str "a", str "t", str "s", str "p"⟩),
         (str "b", ⟨str "c", str "t", str "s", str "q"⟩)],
        ⟨1, []⟩, ⟨1, []⟩, ⟨1, []⟩, ⟨1, []⟩⟩ =
      .ok ⟨1, ⟨2022, 8, 30, 19, 53, 55, 0⟩, false,
        [(str "a", ⟨str "a", str "t", str "s", str "p"⟩)],
        ⟨1, []⟩, ⟨1, []⟩, ⟨1, []⟩, ⟨1, []⟩⟩ := by
  have := C7_legacy_key_filter
    ⟨Role.root, str "1.0", 1, false, str "2022-08-30T19:53:55Z",
      [(str "a", ⟨str "a", str "t", str "s", str "p"⟩),
       (str "b", ⟨str "c", str "t", str "s", str "q"⟩)],
      ⟨1, []⟩, ⟨1, []⟩, ⟨1, []⟩, ⟨1, []⟩⟩
    rfl (by decide) (by decide) ⟨2022, 8, 30, 19, 53, 55, 0⟩ (by decide)
  rw [this]
  decide

/-- C8: every key of a snapshot `meta` map must end in `.json`; the
suffix is stripped to recover the logical path, a key lacking the suffix
fails decode with an error naming it, and encode appends the suffix to
every logical path. -/
theorem C8_snapshot_suffix :
    (∀ w : shims.SnapshotMetadata, w.typ = Role.snapshot →
      valid_spec_version w.spec_version = true →
      ∀ e, parse_datetime w.expires = .ok e →
      (∀ p ∈ w.meta, shims.endsWithJson p.1 = true) →
      shims.SnapshotMetadata.try_into w =
        .ok ⟨w.version, e,
          btreeOfList (w.meta.map (fun p => (shims.stripJson p.1, p.2)))⟩) ∧
    (∀ w : shims.SnapshotMetadata, w.typ = Role.snapshot →
      valid_spec_version w.spec_version = true →
      ∀ e, parse_datetime w.expires = .ok e →
      ∀ (l1 : List (Str × metadata.MetadataDescription)) p l2,
      w.meta = l1 ++ p :: l2 →
      (∀ q ∈ l1, shims.endsWithJson q.1 = true) →
      shims.endsWithJson p.1 = false →
      shims.SnapshotMetadata.try_into w =
        .error (.encoding
          (str "Metadata does not end with .json: " ++ p.1))) ∧
    (∀ m : metadata.SnapshotMetadata,
      (shims.SnapshotMetadata.from_metadata m).meta =
        btreeOfList (m.meta.map (fun p => (p.1 ++ str ".json", p.2)))) ∧
    shims.stripJson (str "foo.json") = str "foo" ∧
    shims.endsWithJson (str "foo.json") = true ∧
    shims.endsWithJson (str "foo") = false := by
  refine ⟨?_, ?_, fun _ => rfl, by decide, by decide, by decide⟩
  · intro w htyp hspec e hparse hsuf
    rw [shims.SnapshotMetadata.try_into, if_neg (fun hne => hne htyp),
      if_neg (fun hn => hn hspec), hparse]
    simp only [ebind_ok]
    rw [emapM_stripJson hsuf]
    simp only [ebind_ok]
    rw [metadata.SnapshotMetadata.new]
  · intro w htyp hspec e hparse l1 p l2 hmeta hpre hbad
    rw [shims.SnapshotMetadata.try_into, if_neg (fun hne => hne htyp),
      if_neg (fun hn => hn hspec), hparse]
    simp only [ebind_ok]
    rw [hmeta]
    have herr2 : emapM shims.stripJsonEntry (l1 ++ p :: l2) =
        .error (.encoding (str "Metadata does not end with .json: " ++ p.1)) := by
      refine emapM_append_error ?_ ?_
      · intro q hq
        refine ⟨(shims.stripJson q.1, q.2), ?_⟩
        simp only [shims.stripJsonEntry, if_pos (hpre q hq)]
        rfl
      · simp only [shims.stripJsonEntry, hbad, Bool.false_eq_true, if_false]
    rw [herr2]
    simp only [ebind_error]

/-- C8 witness: `meta: {"foo.json": …}` decodes to logical path `"foo"`;
`meta: {"foo": …}` fails naming the key `"foo"`. -/
theorem C8_snapshot_suffix_witness :
    shims.SnapshotMetadata.try_into
      ⟨Role.snapshot, str "1.0", 1, str "2022-08-30T19:53:55Z",
        [(str "foo.json", ⟨1, none, []⟩)]⟩ =
      .ok ⟨1, ⟨2022, 8, 30, 19, 53, 55, 0⟩, [(str "foo", ⟨1, none, []⟩)]⟩ ∧
    shims.SnapshotMetadata.try_into
      ⟨Role.snapshot, str "1.0", 1, str "2022-08-30T19:53:55Z",
        [(str "foo", ⟨1, none, []⟩)]⟩ =
      .error (.encoding
        (str "Metadata does not end with .json: " ++ str "foo")) := by
  obtain ⟨hok, herr, _, _, _, _⟩ := C8_snapshot_suffix
  constructor
  · have := hok ⟨Role.snapshot, str "1.0", 1, str "2022-08-30T19:53:55Z",
      [(str "foo.json", ⟨1, none, []⟩)]⟩ rfl (by decide)
      ⟨2022, 8, 30, 19, 53, 55, 0⟩ (by decide) (by decide)
    rw [this]
    decide
  · exact herr ⟨Role.snapshot, str "1.0", 1, str "2022-08-30T19:53:55Z",
      [(str "foo", ⟨1, none, []⟩)]⟩ rfl (by decide)
      ⟨2022, 8, 30, 19, 53, 55, 0⟩ (by decide) [] (str "foo", ⟨1, none, []⟩)
      [] rfl (by simp) (by decide)

/-- C9: encoding is a deterministic function of the validated value —
role-definition key-id lists and delegation key-id and path lists are
emitted sorted, delegation entries are emitted sorted by role name, and
two encodings of equal values whose unordered collections are iterated in
different orders are identical. -/
theorem C9_deterministic_encoding :
    (∀ (t : Nat) (ids ids' : List KeyId), List.Perm ids ids' →
      shims.RoleDefinition.from_metadata ⟨t, ids⟩ =
        shims.RoleDefinition.from_metadata ⟨t, ids'⟩) ∧
    (∀ r : metadata.RoleDefinition,
      ((shims.RoleDefinition.from_metadata r).key_ids).Sorted (· ≤ ·)) ∧
    (∀ d d' : metadata.Delegation, d.name = d'.name →
      d.terminating = d'.terminating → d.threshold = d'.threshold →
      List.Perm d.key_ids d'.key_ids → List.Perm d.paths d'.paths →
      shims.Delegation.from_metadata d = shims.Delegation.from_metadata d') ∧
    (∀ d : metadata.Delegation,
      ((shims.Delegation.from_metadata d).key_ids).Sorted (· ≤ ·) ∧
      ((shims.Delegation.from_metadata d).paths).Sorted (· ≤ ·)) ∧
    (∀ g g' : metadata.Delegations, List.Perm g.keys g'.keys →
      (g'.keys.map Prod.fst).Nodup →
      List.Forall₂ (fun d d' : metadata.Delegation => d.name = d'.name ∧
        d.terminating = d'.terminating ∧ d.threshold = d'.threshold ∧
        List.Perm d.key_ids d'.key_ids ∧ List.Perm d.paths d'.paths)
        g.roles g'.roles →
      shims.Delegations.from_metadata g =
        shims.Delegations.from_metadata g') ∧
    (∀ g : metadata.Delegations,
      ((shims.Delegations.from_metadata g).roles).Sorted
        (fun a b => a.name ≤ b.name)) := by
  have hdeleg : ∀ d d' : metadata.Delegation, d.name = d'.name →
      d.terminating = d'.terminating → d.threshold = d'.threshold →
      List.Perm d.key_ids d'.key_ids → List.Perm d.paths d'.paths →
      shims.Delegation.from_metadata d = shims.Delegation.from_metadata d' := by
    intro d d' h1 h2 h3 h4 h5
    simp only [shims.Delegation.from_metadata, h1, h2, h3,
      sort_perm_eq h4, sort_perm_eq h5]
  refine ⟨?_, ?_, hdeleg, ?_, ?_, ?_⟩
  · intro t ids ids' h
    simp only [shims.RoleDefinition.from_metadata, sort_perm_eq h]
  · intro r
    exact List.sorted_insertionSort _ _
  · intro d
    exact ⟨List.sorted_insertionSort _ _, List.sorted_insertionSort _ _⟩
  · intro g g' hkeys hnd hroles
    have hmaps : ∀ {rs rs' : List metadata.Delegation},
        List.Forall₂ (fun d d' : metadata.Delegation => d.name = d'.name ∧
          d.terminating = d'.terminating ∧ d.threshold = d'.threshold ∧
          List.Perm d.key_ids d'.key_ids ∧ List.Perm d.paths d'.paths)
          rs rs' →
        rs.map shims.Delegation.from_metadata =
          rs'.map shims.Delegation.from_metadata := by
      intro rs rs' hf
      induction hf with
      | nil => rfl
      | cons h t ih =>
        obtain ⟨h1, h2, h3, h4, h5⟩ := h
        simp only [List.map_cons, ih, hdeleg _ _ h1 h2 h3 h4 h5]
    simp only [shims.Delegations.from_metadata, hmaps hroles,
      btree_perm_eq hkeys hnd]
  · intro g
    exact List.sorted_insertionSort _ _

/-- C9 witness: differently-ordered iterations of the same key-id set,
path set, key pool, and delegation data encode byte-identically. -/
theorem C9_deterministic_encoding_witness :
    shims.RoleDefinition.from_metadata ⟨1, [str "B", str "A"]⟩ =
      shims.RoleDefinition.from_metadata ⟨1, [str "A", str "B"]⟩ ∧
    shims.Delegations.from_metadata
      ⟨[(str "k1", ⟨str "k1", str "t", str "s", str "p"⟩),
        (str "k2", ⟨str "k2", str "t", str "s", str "q"⟩)],
       [⟨str "d", false, 1, [str "B", str "A"], [str "y", str "x"]⟩]⟩ =
      shims.Delegations.from_metadata
      ⟨[(str "k2", ⟨str "k2", str "t", str "s", str "q"⟩),
        (str "k1", ⟨str "k1", str "t", str "s", str "p"⟩)],
       [⟨str "d", false, 1, [str "A", str "B"], [str "x", str "y"]⟩]⟩ := by
  obtain ⟨hrd, _, _, _, hg, _⟩ := C9_deterministic_encoding
  constructor
  · exact hrd 1 [str "B", str "A"] [str "A", str "B"] (by decide)
  · refine hg _ _ ?_ (by decide) ?_
    · exact List.Perm.swap _ _ _
    · refine List.Forall₂.cons ?_ List.Forall₂.nil
      exact ⟨rfl, rfl, rfl, by decide, by decide⟩

/-- C1 counterexample: round-tripping is NOT the identity on every valid
in-memory value.  The wire timestamp document with expiry
`"2022-08-30T19:53:55.775Z"` decodes to a valid in-memory value carrying
sub-second precision; re-encoding formats whole seconds only, so decoding
the re-encoding yields a different value. -/
theorem C1_counterexample :
    shims.TimestampMetadata.try_into
      ⟨Role.timestamp, str "1.0", 1, str "2022-08-30T19:53:55.775Z",
        ⟨1, none, []⟩⟩ =
      .ok ⟨1, ⟨2022, 8, 30, 19, 53, 55, 775000000⟩, ⟨1, none, []⟩⟩ ∧
    (⟨1, ⟨2022, 8, 30, 19, 53, 55, 775000000⟩, ⟨1, none, []⟩⟩ :
      metadata.TimestampMetadata).Valid ∧
    shims.TimestampMetadata.try_into (shims.TimestampMetadata.from_metadata
      ⟨1, ⟨2022, 8, 30, 19, 53, 55, 775000000⟩, ⟨1, none, []⟩⟩) =
      .ok ⟨1, ⟨2022, 8, 30, 19, 53, 55, 0⟩, ⟨1, none, []⟩⟩ ∧
    (⟨1, ⟨2022, 8, 30, 19, 53, 55, 0⟩, ⟨1, none, []⟩⟩ :
      metadata.TimestampMetadata) ≠
      ⟨1, ⟨2022, 8, 30, 19, 53, 55, 775000000⟩, ⟨1, none, []⟩⟩ :=
  ⟨by decide, by decide, by decide, by decide⟩

/-- C1 (amended): for every valid in-memory metadata value of each of the
four roles whose expiry has zero sub-second component, decoding the
encoding yields the value back: `try_into (from m) = ok m`. -/
theorem C1_round_trip_amended :
    (∀ m : metadata.RootMetadata, m.Valid → m.expires.nano = 0 →
      shims.RootMetadata.try_into (shims.RootMetadata.from_metadata m) =
        .ok m) ∧
    (∀ m : metadata.TimestampMetadata, m.Valid → m.expires.nano = 0 →
      shims.TimestampMetadata.try_into
        (shims.TimestampMetadata.from_metadata m) = .ok m) ∧
    (∀ m : metadata.SnapshotMetadata, m.Valid → m.expires.nano = 0 →
      shims.SnapshotMetadata.try_into
        (shims.SnapshotMetadata.from_metadata m) = .ok m) ∧
    (∀ m : metadata.TargetsMetadata, m.Valid → m.expires.nano = 0 →
      shims.TargetsMetadata.try_into
        (shims.TargetsMetadata.from_metadata m) = .ok m) :=
  ⟨fun _ hv hn => root_roundtrip hv hn,
    fun _ hv hn => timestamp_roundtrip hv hn,
    fun _ hv hn => snapshot_roundtrip hv hn,
    fun _ hv hn => targets_roundtrip hv hn⟩

/-- C1 witness: the amended round trip applied to one concrete valid
whole-second value of each role. -/
theorem C1_round_trip_amended_witness :
    shims.RootMetadata.try_into (shims.RootMetadata.from_metadata
      ⟨1, ⟨2022, 8, 30, 19, 53, 55, 0⟩, false,
        [(str "k", ⟨str "k", str "t", str "s", str "p"⟩)],
        ⟨1, [str "k"]⟩, ⟨1, [str "k"]⟩, ⟨1, [str "k"]⟩, ⟨1, [str "k"]⟩⟩) =
      .ok ⟨1, ⟨2022, 8, 30, 19, 53, 55, 0⟩, false,
        [(str "k", ⟨str "k", str "t", str "s", str "p"⟩)],
        ⟨1, [str "k"]⟩, ⟨1, [str "k"]⟩, ⟨1, [str "k"]⟩, ⟨1, [str "k"]⟩⟩ ∧
    shims.TimestampMetadata.try_into (shims.TimestampMetadata.from_metadata
      ⟨1, ⟨2022, 8, 30, 19, 53, 55, 0⟩, ⟨1, none, []⟩⟩) =
      .ok ⟨1, ⟨2022, 8, 30, 19, 53, 55, 0⟩, ⟨1, none, []⟩⟩ ∧
    shims.SnapshotMetadata.try_into (shims.SnapshotMetadata.from_metadata
      ⟨1, ⟨2022, 8, 30, 19, 53, 55, 0⟩, [(str "targets", ⟨1, none, []⟩)]⟩) =
      .ok ⟨1, ⟨2022, 8, 30, 19, 53, 55, 0⟩,
        [(str "targets", ⟨1, none, []⟩)]⟩ ∧
    shims.TargetsMetadata.try_into (shims.TargetsMetadata.from_metadata
      ⟨1, ⟨2022, 8, 30, 19, 53, 55, 0⟩, [(str "foo", ⟨10, [], []⟩)],
        ⟨[], []⟩⟩) =
      .ok ⟨1, ⟨2022, 8, 30, 19, 53, 55, 0⟩, [(str "foo", ⟨10, [], []⟩)],
        ⟨[], []⟩⟩ := by
  obtain ⟨hroot, hts, hsnap, htgt⟩ := C1_round_trip_amended
  exact ⟨hroot _ (by decide) (by decide), hts _ (by decide) (by decide),
    hsnap _ (by decide) (by decide), htgt _ (by decide) (by decide)⟩
